import Mathlib

/-!
# Finite state machine with undo/redo history (src/src/fsm.js)

A shallow embedding of the class FSM.  Every method of the class becomes a
function from the machine before the call to the outcome of the call paired
with the machine after the call, so that a call that throws still shows what
it left behind.

Modelling conventions.

* A JavaScript object used as a dictionary (config.states, a descriptor's
  transitions, the flattened table) is a plain object: its own properties are
  an association list in iteration order, and its prototype is
  Object.prototype.  Object.keys, Object.values and Object.entries see the own
  properties; a property read obj[key] sees the own properties first and then
  the members every plain object inherits (toString, constructor, __proto__
  and the others of objectPrototypeKeys).
* State and event identifiers handed to the public methods are strings.  The
  empty string is the one falsy string, which matters for the guards written
  with the negation operator.  A value read from a dictionary and passed on
  as a state can also be an inherited member, hence JSValue.
* An array element is a Slot: either a history entry or undefined (none),
  because Array.prototype.pop on an empty array yields undefined and the
  code pushes what it popped.
* Every state descriptor carries a transitions object, as the data model of
  the configuration requires.
* Ids are unbounded integers.
-/

namespace FiniteStateMachine

/-! ## Data model -/

/-- A transitions object: event identifier to destination state identifier. -/
abbrev Transitions := List (String × String)

/-- A state descriptor of the configuration. -/
structure StateDescriptor where
  transitions : Transitions
  deriving DecidableEq, Repr

/-- The states object of the configuration. -/
abbrev States := List (String × StateDescriptor)

/-- The configuration object handed to the constructor. -/
structure Config where
  initial : String
  states : States
  deriving DecidableEq, Repr

/-- A value that can be held as a state: a string, or the member of
Object.prototype that a property read returned under the given name (a
built-in function, or Object.prototype itself for the name __proto__). -/
inductive JSValue where
  | str (s : String)
  | inherited (name : String)
  deriving DecidableEq, Repr

/-- A history entry, the object with fields id and state. -/
structure HistoryEntry where
  id : Int
  state : JSValue
  deriving DecidableEq, Repr

/-- An array element: an entry, or undefined. -/
abbrev Slot := Option HistoryEntry

/-- The history object: currentID and the array states. -/
structure History where
  currentID : Int
  states : List Slot
  deriving DecidableEq, Repr

/-- The instance fields of the class FSM.  The field availableTransitions is
none when it holds undefined. -/
structure FSM where
  config : Config
  state : JSValue
  states : States
  availableTransitions : Option Transitions
  history : History
  undoHistory : List Slot
  isEnabledRedo : Bool
  transitions : Transitions
  deriving DecidableEq, Repr

/-- The errors a call can throw.  The first three are the explicit throw
statements ('Empty config', 'Does not exist such state', 'Current state does
not exist'); typeError is a property read on undefined. -/
inductive FSMError where
  | emptyConfig
  | noSuchState
  | noSuchTransition
  | typeError
  deriving DecidableEq, Repr

/-- The message carried by each explicitly thrown error. -/
def FSMError.message : FSMError → String
  | .emptyConfig => "Empty config"
  | .noSuchState => "Does not exist such state"
  | .noSuchTransition => "Current state does not exist"
  | .typeError => "TypeError"

/-- How a call ended: it returned a value, or it threw. -/
inductive Outcome (α : Type) where
  | returned (value : α)
  | thrown (error : FSMError)
  deriving DecidableEq, Repr

/-- True when the call returned normally. -/
def Outcome.isReturned {α : Type} : Outcome α → Bool
  | .returned _ => true
  | .thrown _ => false

/-! ## Property reads and writes on plain objects -/

/-- Object.keys of a dictionary. -/
def keys {β : Type} (o : List (String × β)) : List String :=
  o.map Prod.fst

/-- The property names of Object.prototype, which every plain object
inherits. -/
def objectPrototypeKeys : List String :=
  ["constructor", "__defineGetter__", "__defineSetter__", "hasOwnProperty",
   "__lookupGetter__", "__lookupSetter__", "isPrototypeOf", "propertyIsEnumerable",
   "toString", "valueOf", "__proto__", "toLocaleString"]

/-- What a property read obj[key] on a plain object finds: an own property,
a member inherited from Object.prototype, or nothing (undefined). -/
inductive Read (β : Type) where
  | own (value : β)
  | inherited (name : String)
  | absent
  deriving DecidableEq, Repr

/-- The property read obj[key] on a plain object. -/
def readProperty {β : Type} (o : List (String × β)) (key : String) : Read β :=
  match o.lookup key with
  | some v => .own v
  | none => if key ∈ objectPrototypeKeys then .inherited key else .absent

/-- The string an inherited member converts to when it is used as a property
key: Object.prototype itself prints as [object Object], a built-in function
prints its native source text (as the engine of Node prints it); the member
under constructor is the function Object. -/
def memberText (name : String) : String :=
  if name = "__proto__" then "[object Object]"
  else if name = "constructor" then "function Object() \x7b [native code] \x7d"
  else "function " ++ name ++ "() \x7b [native code] \x7d"

/-- The property key a value converts to in a read obj[value]. -/
def toPropertyKey : JSValue → String
  | .str s => s
  | .inherited name => memberText name

/-- The decimal value of a list of digits. -/
def digitsValue (cs : List Char) : Nat :=
  cs.foldl (fun n c => 10 * n + (c.toNat - 48)) 0

/-- The array index a property key denotes, if it is the canonical decimal
form of an integer below 2^32 - 1; such keys iterate first, in ascending
order. -/
def arrayIndex (key : String) : Option Nat :=
  match key.data with
  | [] => none
  | [c] => if c.isDigit then some (c.toNat - 48) else none
  | c :: cs =>
    if c = '0' then none
    else if (c :: cs).all Char.isDigit ∧ digitsValue (c :: cs) < 2 ^ 32 - 1 then
      some (digitsValue (c :: cs))
    else none

/-- Where a new array-index key goes: after the array-index keys below it. -/
def insertIndex (acc : Transitions) (i : Nat) (key value : String) : Transitions :=
  match acc with
  | [] => [(key, value)]
  | (k, v) :: rest =>
    match arrayIndex k with
    | some j =>
      if j < i then (k, v) :: insertIndex rest i key value
      else (key, value) :: (k, v) :: rest
    | none => (key, value) :: (k, v) :: rest

/-- An existing key keeps its place and takes the new value. -/
def replaceValue : Transitions → String → String → Transitions
  | [], _, _ => []
  | (k, v) :: rest, key, value =>
    if k = key then (k, value) :: rest else (k, v) :: replaceValue rest key value

/-- The assignment acc[key] = value of a string on a plain object.  Under
the key __proto__ it reaches the inherited setter, which ignores a string,
so no property is created; an existing key keeps its place and takes the new
value; a new array-index key goes among the array-index keys; any other new
key goes last. -/
def setProperty (acc : Transitions) (key value : String) : Transitions :=
  if key = "__proto__" then acc
  else if key ∈ keys acc then replaceValue acc key value
  else
    match arrayIndex key with
    | some i => insertIndex acc i key value
    | none => acc ++ [(key, value)]

/-- Truthiness of a value that is a string or undefined (none): undefined and
the empty string are falsy. -/
def truthy : Option String → Bool
  | none => false
  | some s => s != ""

/-! ## The methods -/

/-- The helper getLastElement: arr.slice(-1)[0], undefined on an empty array. -/
def getLastElement (arr : List Slot) : Slot :=
  arr.getLast?.join

/-- Array.prototype.pop: the removed last element (undefined when the array
is empty) and the array that remains. -/
def arrayPop (arr : List Slot) : Slot × List Slot :=
  (arr.getLast?.join, arr.dropLast)

/-- Array.prototype.push of one element. -/
def arrayPush (arr : List Slot) (x : Slot) : List Slot :=
  arr ++ [x]

/-- The method initializeHistory. -/
def initializeHistory (initialState : JSValue) : History :=
  { currentID := 1, states := [some { id := 1, state := initialState }] }

/-- The method parseTransitions: every state's transitions merged into one
object, in iteration order of the states. -/
def parseTransitions (states : States) : Transitions :=
  (states.map (fun s => s.2.transitions)).foldl
    (fun acc next => next.foldl (fun a entry => setProperty a entry.1 entry.2) acc) []

/-- The method getAvailableTransitions: states[state].transitions.  An own
descriptor gives its transitions; an inherited member has no property
transitions, so the result is undefined (none); when states[state] is
undefined the read of transitions throws a TypeError. -/
def getAvailableTransitions (state : JSValue) (states : States) :
    Outcome (Option Transitions) :=
  match readProperty states (toPropertyKey state) with
  | .own d => .returned (some d.transitions)
  | .inherited _ => .returned none
  | .absent => .thrown .typeError

/-- The constructor. A null or undefined config is none. -/
def FSM.new (config : Option Config) : Outcome FSM :=
  match config with
  | none => .thrown .emptyConfig
  | some c =>
    match getAvailableTransitions (.str c.initial) c.states with
    | .thrown e => .thrown e
    | .returned ts =>
      .returned
          { config := c
            state := .str c.initial
            states := c.states
            availableTransitions := ts
            history := initializeHistory (.str c.initial)
            undoHistory := []
            isEnabledRedo := false
            transitions := parseTransitions c.states }

/-- The method getState. -/
def getState (m : FSM) : JSValue :=
  m.state

/-- The method addToHistory. -/
def addToHistory (m : FSM) (state : JSValue) : Outcome Unit × FSM :=
  match getLastElement m.history.states with
  | none => (.thrown .typeError, m)
  | some lastHistoryItem =>
    let currentState : HistoryEntry := { state := state, id := lastHistoryItem.id + 1 }
    (.returned (),
      { m with history := { currentID := currentState.id
                            states := arrayPush m.history.states (some currentState) } })

/-- The method changeState.  The guard is the truthiness of states[state]: an
own descriptor and an inherited member are both truthy. -/
def changeState (m : FSM) (state : JSValue) : Outcome Unit × FSM :=
  match readProperty m.states (toPropertyKey state) with
  | .absent => (.thrown .noSuchState, m)
  | _ =>
    let m1 := { m with state := state }
    match getAvailableTransitions m1.state m1.states with
    | .thrown e => (.thrown e, m1)
    | .returned ts =>
      let m2 := { m1 with availableTransitions := ts }
      match addToHistory m2 state with
      | (.thrown e, m3) => (.thrown e, m3)
      | (.returned _, m3) => (.returned (), { m3 with isEnabledRedo := false })

/-- The method trigger.  The guard is the truthiness of
availableTransitions[event]: it throws when the event is absent and also when
its destination is the empty string; an inherited member is truthy and is
passed on to changeState; reading a property of an undefined
availableTransitions throws a TypeError. -/
def trigger (m : FSM) (event : String) : Outcome Unit × FSM :=
  match m.availableTransitions with
  | none => (.thrown .typeError, m)
  | some available =>
    match readProperty available event with
    | .absent => (.thrown .noSuchTransition, m)
    | .own destination =>
      if truthy (some destination) then changeState m (.str destination)
      else (.thrown .noSuchTransition, m)
    | .inherited name => changeState m (.inherited name)

/-- The method reset. -/
def reset (m : FSM) : Outcome Unit × FSM :=
  changeState m (.str m.config.initial)

/-- The method getStates; the argument is none when omitted. -/
def getStates (m : FSM) (event : Option String) : List String :=
  if !truthy event then
    keys m.states
  else
    (m.states.filter (fun s => ((keys s.2.transitions).map some).contains event)).map
      Prod.fst

/-- The method undo. -/
def undo (m : FSM) : Outcome Bool × FSM :=
  if m.history.states.length = 1 then
    (.returned false, m)
  else
    let popped := arrayPop m.history.states
    let m1 := { m with history := { currentID := m.history.currentID - 1, states := popped.2 }
                       undoHistory := arrayPush m.undoHistory popped.1 }
    match getLastElement m1.history.states with
    | none => (.thrown .typeError, m1)
    | some last =>
      let m2 := { m1 with state := last.state }
      match getAvailableTransitions last.state m2.states with
      | .thrown e => (.thrown e, m2)
      | .returned ts =>
        (.returned true, { m2 with availableTransitions := ts, isEnabledRedo := true })

/-- The method redo. -/
def redo (m : FSM) : Outcome Bool × FSM :=
  if m.undoHistory.length = 0 || !m.isEnabledRedo then
    (.returned false, m)
  else
    let popped := arrayPop m.undoHistory
    let m1 := { m with undoHistory := popped.2
                       history := { m.history with states := arrayPush m.history.states popped.1 } }
    match popped.1 with
    | none => (.thrown .typeError, m1)
    | some previousState =>
      let m2 := { m1 with history := { m1.history with currentID := previousState.id }
                          state := previousState.state }
      match getAvailableTransitions m2.state m2.states with
      | .thrown e => (.thrown e, m2)
      | .returned ts => (.returned true, { m2 with availableTransitions := ts })

/-- The method clearHistory. -/
def clearHistory (m : FSM) : Outcome Unit × FSM :=
  (.returned (),
    { m with undoHistory := [], history := initializeHistory (.str m.config.initial) })

/-! ## Call sequences and reachable machines -/

/-- A call of one public method, with string arguments. -/
inductive Call where
  | getState
  | changeState (state : String)
  | trigger (event : String)
  | reset
  | getStates (event : Option String)
  | undo
  | redo
  | clearHistory
  deriving DecidableEq, Repr

/-- A value returned by a public method. -/
inductive Value where
  | undefined
  | bool (b : Bool)
  | state (v : JSValue)
  | strings (l : List String)
  deriving DecidableEq, Repr

/-- The outcome of a call and the machine after it. -/
def perform (m : FSM) : Call → Outcome Value × FSM
  | .getState => (.returned (.state (getState m)), m)
  | .changeState s =>
    match changeState m (.str s) with
    | (.returned _, m1) => (.returned .undefined, m1)
    | (.thrown e, m1) => (.thrown e, m1)
  | .trigger ev =>
    match trigger m ev with
    | (.returned _, m1) => (.returned .undefined, m1)
    | (.thrown e, m1) => (.thrown e, m1)
  | .reset =>
    match reset m with
    | (.returned _, m1) => (.returned .undefined, m1)
    | (.thrown e, m1) => (.thrown e, m1)
  | .getStates ev => (.returned (.strings (getStates m ev)), m)
  | .undo =>
    match undo m with
    | (.returned b, m1) => (.returned (.bool b), m1)
    | (.thrown e, m1) => (.thrown e, m1)
  | .redo =>
    match redo m with
    | (.returned b, m1) => (.returned (.bool b), m1)
    | (.thrown e, m1) => (.thrown e, m1)
  | .clearHistory =>
    match clearHistory m with
    | (.returned _, m1) => (.returned .undefined, m1)
    | (.thrown e, m1) => (.thrown e, m1)

/-- The machine after a sequence of calls, thrown errors being caught by the
caller. -/
def run (m : FSM) (calls : List Call) : FSM :=
  calls.foldl (fun acc c => (perform acc c).2) m

/-- Every call of the sequence returns normally when made in turn. -/
def allReturn : FSM → List Call → Bool
  | _, [] => true
  | m, c :: rest => (perform m c).1.isReturned && allReturn (perform m c).2 rest

/-- The machines reachable from a successful construction on config c by
calls of the public methods. -/
inductive Reachable (c : Config) : FSM → Prop where
  | init (m : FSM) (h : FSM.new (some c) = .returned m) : Reachable c m
  | step (m : FSM) (call : Call) (h : Reachable c m) : Reachable c (perform m call).2

/-- The machine after n calls of undo. -/
def undoTimes : Nat → FSM → FSM
  | 0, m => m
  | n + 1, m => undoTimes n (undo m).2

/-- The machine after n calls of redo. -/
def redoTimes : Nat → FSM → FSM
  | 0, m => m
  | n + 1, m => redoTimes n (redo m).2

/-! ## Example configurations -/

/-- The configuration of the scenario: idle, running, paused. -/
def scenarioConfig : Config :=
  { initial := "idle"
    states :=
      [ ("idle", { transitions := [("start", "running")] }),
        ("running", { transitions := [("stop", "idle"), ("pause", "paused")] }),
        ("paused", { transitions := [("resume", "running")] }) ] }

/-- Three states a, b, c without transitions. -/
def abcConfig : Config :=
  { initial := "a"
    states := [("a", { transitions := [] }), ("b", { transitions := [] }),
               ("c", { transitions := [] })] }

/-- A state a whose event e leads to the state named by the empty string. -/
def emptyNameConfig : Config :=
  { initial := "a"
    states := [("a", { transitions := [("e", "")] }), ("", { transitions := [] })] }

/-- The machine built on emptyNameConfig. -/
def emptyNameMachine : FSM :=
  { config := emptyNameConfig
    state := .str "a"
    states := emptyNameConfig.states
    availableTransitions := some [("e", "")]
    history := { currentID := 1, states := [some ⟨1, .str "a"⟩] }
    undoHistory := []
    isEnabledRedo := false
    transitions := [("e", "")] }

/-- The machine built on abcConfig. -/
def abcMachine : FSM :=
  { config := abcConfig
    state := .str "a"
    states := abcConfig.states
    availableTransitions := some []
    history := { currentID := 1, states := [some ⟨1, .str "a"⟩] }
    undoHistory := []
    isEnabledRedo := false
    transitions := [] }

/-- The abc machine after changeState b: history a, b. -/
def abcAtB : FSM :=
  run abcMachine [.changeState "b"]

/-- The abc machine after changeState b and changeState c: history a, b, c. -/
def abcAtC : FSM :=
  run abcMachine [.changeState "b", .changeState "c"]

/-- The abc machine after changeState b, undo, changeState c: the entry of b
is still on the undo stack when c is entered. -/
def abcStale : FSM :=
  run abcMachine [.changeState "b", .undo, .changeState "c"]

/-- The abc machine after changeState b and clearHistory: the current state
is b while the history holds the one entry of a. -/
def abcCleared : FSM :=
  run abcMachine [.changeState "b", .clearHistory]

/-- The call is a trigger or a changeState. -/
def isTransitionCall : Call → Bool
  | .trigger _ => true
  | .changeState _ => true
  | _ => false

/-- The call is a trigger, a changeState or a reset. -/
def isManualCall : Call → Bool
  | .trigger _ => true
  | .changeState _ => true
  | .reset => true
  | _ => false

/-! ## The invariant of reachable machines -/

/-- A slot holds an entry for whose state the read states[state] is defined,
so that states[state].transitions does not throw. -/
def ValidSlot (states : States) (s : Slot) : Prop :=
  ∃ e, s = some e ∧ ∃ ts, getAvailableTransitions e.state states = .returned ts

/-- What holds of every machine reachable on configuration c. -/
structure Inv (c : Config) (m : FSM) : Prop where
  config_eq : m.config = c
  states_eq : m.states = c.states
  initial_known : ∃ ts, getAvailableTransitions (.str c.initial) c.states = .returned ts
  state_known : getAvailableTransitions m.state m.states = .returned m.availableTransitions
  history_ne : m.history.states ≠ []
  history_valid : ∀ s ∈ m.history.states, ValidSlot m.states s
  undo_valid : ∀ s ∈ m.undoHistory, ValidSlot m.states s
  last_state : 2 ≤ m.history.states.length →
    ∃ e, getLastElement m.history.states = some e ∧ e.state = m.state

/-- The history is the entry first followed by n more entries, and the
current state is the state of the last entry. -/
structure Stacked (c : Config) (first : HistoryEntry) (n : Nat) (m : FSM) : Prop where
  inv : Inv c m
  shape : ∃ rest, m.history.states = some first :: rest ∧ rest.length = n
  current : ∃ e, getLastElement m.history.states = some e ∧ e.state = m.state

/-! ## Ids, reachability without clearHistory, further examples -/

/-- The ids of the entries held by an array, in order. -/
def entryIds (arr : List Slot) : List Int :=
  arr.filterMap (fun s => s.map (fun e => e.id))

/-- The machines reachable from a successful construction on config c by
calls of the public methods other than clearHistory. -/
inductive ReachableNoClear (c : Config) : FSM → Prop where
  | init (m : FSM) (h : FSM.new (some c) = .returned m) : ReachableNoClear c m
  | step (m : FSM) (call : Call) (hcall : call ≠ .clearHistory)
      (h : ReachableNoClear c m) : ReachableNoClear c (perform m call).2

/-- The current state is the state of the last history entry. -/
abbrev Synced (m : FSM) : Prop :=
  (getLastElement m.history.states).map (fun e => e.state) = some (getState m)

/-- The machine built on scenarioConfig. -/
def scenarioMachine : FSM :=
  { config := scenarioConfig
    state := .str "idle"
    states := scenarioConfig.states
    availableTransitions := some [("start", "running")]
    history := { currentID := 1, states := [some ⟨1, .str "idle"⟩] }
    undoHistory := []
    isEnabledRedo := false
    transitions :=
      [("start", "running"), ("stop", "idle"), ("pause", "paused"), ("resume", "running")] }

/-- Two states that both have the event go, with different destinations. -/
def sharedEventConfig : Config :=
  { initial := "a"
    states := [("a", { transitions := [("go", "b")] }),
               ("b", { transitions := [("go", "a"), ("stay", "b")] })] }

/-- The machine built on sharedEventConfig. -/
def sharedEventMachine : FSM :=
  { config := sharedEventConfig
    state := .str "a"
    states := sharedEventConfig.states
    availableTransitions := some [("go", "b")]
    history := { currentID := 1, states := [some ⟨1, .str "a"⟩] }
    undoHistory := []
    isEnabledRedo := false
    transitions := [("go", "a"), ("stay", "b")] }

/-- A configuration whose initial state x is not a key of states. -/
def missingInitialConfig : Config :=
  { initial := "x"
    states := [("a", { transitions := [("go", "a")] })] }

/-- A configuration whose initial state toString is not a key of states but
is a name every plain object inherits. -/
def inheritedInitialConfig : Config :=
  { initial := "toString"
    states := [("a", { transitions := [("go", "a")] })] }

/-- State a has a transition on the event named by the empty string, state b
has none. -/
def emptyEventConfig : Config :=
  { initial := "a"
    states := [("a", { transitions := [("", "b")] }), ("b", { transitions := [] })] }

/-- The machine built on emptyEventConfig. -/
def emptyEventMachine : FSM :=
  { config := emptyEventConfig
    state := .str "a"
    states := emptyEventConfig.states
    availableTransitions := some [("", "b")]
    history := { currentID := 1, states := [some ⟨1, .str "a"⟩] }
    undoHistory := []
    isEnabledRedo := false
    transitions := [("", "b")] }

/-- State a has a transition on the event named __proto__ (an own key, as
JSON.parse creates it), state b has none. -/
def protoEventConfig : Config :=
  { initial := "a"
    states := [("a", { transitions := [("__proto__", "b")] }), ("b", { transitions := [] })] }

/-- The machine built on protoEventConfig: the flattened table is empty. -/
def protoEventMachine : FSM :=
  { config := protoEventConfig
    state := .str "a"
    states := protoEventConfig.states
    availableTransitions := some [("__proto__", "b")]
    history := { currentID := 1, states := [some ⟨1, .str "a"⟩] }
    undoHistory := []
    isEnabledRedo := false
    transitions := [] }

/-- A state a without transitions and a state whose name is the text
[object Object]. -/
def objectNameConfig : Config :=
  { initial := "a"
    states := [("a", { transitions := [] }), ("[object Object]", { transitions := [] })] }

/-- The machine built on objectNameConfig. -/
def objectNameMachine : FSM :=
  { config := objectNameConfig
    state := .str "a"
    states := objectNameConfig.states
    availableTransitions := some []
    history := { currentID := 1, states := [some ⟨1, .str "a"⟩] }
    undoHistory := []
    isEnabledRedo := false
    transitions := [] }

/-- The machine abcStale after undo, redo, redo: the stale entry of b is back
in the history. -/
def abcStaleRedone : FSM :=
  run abcStale [.undo, .redo, .redo]

/-- The machine abcStaleRedone after one more undo. -/
def abcStaleUndone : FSM :=
  run abcStale [.undo, .redo, .redo, .undo]

/-! ## Array helpers -/

theorem getLastElement_append_singleton (l : List Slot) (x : Slot) :
    getLastElement (l ++ [x]) = x := by
  simp [getLastElement]

theorem arrayPop_append_singleton (l : List Slot) (x : Slot) :
    arrayPop (l ++ [x]) = (x, l) := by
  simp [arrayPop]

theorem exists_append_singleton_of_ne_nil (l : List Slot) (h : l ≠ []) :
    ∃ pre x, l = pre ++ [x] :=
  ⟨l.dropLast, l.getLast h, (List.dropLast_append_getLast h).symm⟩

/-! ## Property reads -/

theorem lookup_eq_none_of_not_mem_keys {β : Type} (o : List (String × β)) (k : String)
    (h : k ∉ keys o) : o.lookup k = none := by
  induction o with
  | nil => rfl
  | cons p rest ih =>
    obtain ⟨k1, v1⟩ := p
    simp only [keys, List.map_cons, List.mem_cons, not_or] at h
    have hne : (k == k1) = false := by simpa using h.1
    simp only [List.lookup, hne]
    exact ih h.2

theorem exists_lookup_of_mem_keys {β : Type} (o : List (String × β)) (k : String)
    (h : k ∈ keys o) : ∃ v, o.lookup k = some v := by
  induction o with
  | nil => simp [keys] at h
  | cons p rest ih =>
    obtain ⟨k1, v1⟩ := p
    by_cases hk : k = k1
    · subst hk
      exact ⟨v1, by simp [List.lookup]⟩
    · have hne : (k == k1) = false := by simpa using hk
      simp only [keys, List.map_cons, List.mem_cons] at h
      rcases h with h | h
      · exact absurd h hk
      · simp only [List.lookup, hne]
        exact ih h

theorem mem_keys_of_lookup {β : Type} (o : List (String × β)) (k : String) (v : β)
    (h : o.lookup k = some v) : k ∈ keys o := by
  by_contra hk
  rw [lookup_eq_none_of_not_mem_keys o k hk] at h
  exact Option.noConfusion h

theorem readProperty_of_lookup {β : Type} (o : List (String × β)) (k : String) (v : β)
    (h : o.lookup k = some v) : readProperty o k = .own v := by
  simp [readProperty, h]

theorem readProperty_absent {β : Type} (o : List (String × β)) (k : String)
    (h : k ∉ keys o) (hp : k ∉ objectPrototypeKeys) : readProperty o k = .absent := by
  simp [readProperty, lookup_eq_none_of_not_mem_keys o k h, hp]

theorem readProperty_inherited {β : Type} (o : List (String × β)) (k : String)
    (h : k ∉ keys o) (hp : k ∈ objectPrototypeKeys) : readProperty o k = .inherited k := by
  simp [readProperty, lookup_eq_none_of_not_mem_keys o k h, hp]

theorem getAvailableTransitions_of_lookup (states : States) (k : String)
    (d : StateDescriptor) (h : states.lookup k = some d) :
    getAvailableTransitions (.str k) states = .returned (some d.transitions) := by
  simp [getAvailableTransitions, toPropertyKey, readProperty_of_lookup states k d h]

theorem readProperty_of_returned (states : States) (v : JSValue)
    (ts : Option Transitions) (h : getAvailableTransitions v states = .returned ts) :
    readProperty states (toPropertyKey v) ≠ .absent := by
  intro habs
  simp [getAvailableTransitions, habs] at h

theorem getAvailableTransitions_of_absent (states : States) (v : JSValue)
    (h : readProperty states (toPropertyKey v) = .absent) :
    getAvailableTransitions v states = .thrown .typeError := by
  simp [getAvailableTransitions, h]

/-! ## What each mutating method does on a given machine -/

theorem changeState_unknown (m : FSM) (target : JSValue)
    (h : readProperty m.states (toPropertyKey target) = .absent) :
    changeState m target = (.thrown .noSuchState, m) := by
  simp [changeState, h]

theorem changeState_known (m : FSM) (target : JSValue) (ts : Option Transitions)
    (last : HistoryEntry)
    (hd : getAvailableTransitions target m.states = .returned ts)
    (hl : getLastElement m.history.states = some last) :
    changeState m target =
      (.returned (),
        { m with state := target
                 availableTransitions := ts
                 history := { currentID := last.id + 1
                              states := m.history.states ++ [some ⟨last.id + 1, target⟩] }
                 isEnabledRedo := false }) := by
  have hr := readProperty_of_returned m.states target ts hd
  unfold changeState
  cases hread : readProperty m.states (toPropertyKey target) with
  | absent => exact absurd hread hr
  | own d => simp [hd, addToHistory, hl, arrayPush]
  | inherited name => simp [hd, addToHistory, hl, arrayPush]

theorem changeState_cases (m : FSM) (target : JSValue) :
    readProperty m.states (toPropertyKey target) = .absent ∨
    ∃ ts, getAvailableTransitions target m.states = .returned ts := by
  cases hread : readProperty m.states (toPropertyKey target) with
  | absent => exact Or.inl rfl
  | own d => exact Or.inr ⟨some d.transitions, by simp [getAvailableTransitions, hread]⟩
  | inherited name => exact Or.inr ⟨none, by simp [getAvailableTransitions, hread]⟩

theorem undo_boundary (m : FSM) (h : m.history.states.length = 1) :
    undo m = (.returned false, m) := by
  simp [undo, h]

theorem undo_pop (m : FSM) (pre : List Slot) (x : Slot) (e : HistoryEntry)
    (ts : Option Transitions)
    (hs : m.history.states = pre ++ [x])
    (hl : getLastElement pre = some e)
    (hd : getAvailableTransitions e.state m.states = .returned ts) :
    undo m =
      (.returned true,
        { m with history := { currentID := m.history.currentID - 1, states := pre }
                 undoHistory := m.undoHistory ++ [x]
                 state := e.state
                 availableTransitions := ts
                 isEnabledRedo := true }) := by
  have hpre : pre ≠ [] := by
    intro h0
    simp [h0, getLastElement] at hl
  have hlen : ¬ (pre.length + 1 = 1) := by
    have := List.length_pos.mpr hpre
    omega
  simp [undo, hs, hlen, arrayPop_append_singleton, arrayPush, hl, hd]

theorem redo_boundary (m : FSM) (h : m.undoHistory = [] ∨ m.isEnabledRedo = false) :
    redo m = (.returned false, m) := by
  rcases h with h | h <;> simp [redo, h]

theorem redo_push (m : FSM) (pre : List Slot) (e : HistoryEntry) (ts : Option Transitions)
    (hu : m.undoHistory = pre ++ [some e])
    (hf : m.isEnabledRedo = true)
    (hd : getAvailableTransitions e.state m.states = .returned ts) :
    redo m =
      (.returned true,
        { m with undoHistory := pre
                 history := { currentID := e.id, states := m.history.states ++ [some e] }
                 state := e.state
                 availableTransitions := ts }) := by
  simp [redo, hu, hf, arrayPop_append_singleton, arrayPush, hd]

/-! ## The invariant holds of every reachable machine -/

theorem getLastElement_mem (l : List Slot) (h : l ≠ []) :
    ∃ pre, l = pre ++ [getLastElement l] := by
  obtain ⟨pre, x, rfl⟩ := exists_append_singleton_of_ne_nil l h
  exact ⟨pre, by rw [getLastElement_append_singleton]⟩

theorem Inv.last_entry {c : Config} {m : FSM} (h : Inv c m) :
    ∃ e ts, getLastElement m.history.states = some e ∧
      getAvailableTransitions e.state m.states = .returned ts := by
  obtain ⟨pre, hpre⟩ := getLastElement_mem m.history.states h.history_ne
  have hmem : getLastElement m.history.states ∈ m.history.states := by
    rw [hpre]; simp [getLastElement_append_singleton]
  obtain ⟨e, he, d, hd⟩ := h.history_valid _ hmem
  exact ⟨e, d, he, hd⟩

theorem new_returned {c : Config} {m : FSM} (h : FSM.new (some c) = .returned m) :
    ∃ ts, getAvailableTransitions (.str c.initial) c.states = .returned ts ∧
      m = { config := c
            state := .str c.initial
            states := c.states
            availableTransitions := ts
            history := initializeHistory (.str c.initial)
            undoHistory := []
            isEnabledRedo := false
            transitions := parseTransitions c.states } := by
  unfold FSM.new at h
  cases hd : getAvailableTransitions (.str c.initial) c.states with
  | thrown e => simp [hd] at h
  | returned ts =>
    simp [hd] at h
    exact ⟨ts, rfl, h.symm⟩

theorem Inv.of_new {c : Config} {m : FSM} (h : FSM.new (some c) = .returned m) : Inv c m := by
  obtain ⟨ts, hts, rfl⟩ := new_returned h
  refine ⟨rfl, rfl, ⟨ts, hts⟩, hts, ?_, ?_, ?_, ?_⟩
  · simp [initializeHistory]
  · intro s hs
    simp [initializeHistory] at hs
    exact ⟨_, hs, ts, hts⟩
  · intro s hs
    simp at hs
  · intro h2
    simp [initializeHistory] at h2

theorem Inv.after_changeState {c : Config} {m : FSM} (h : Inv c m) (target : JSValue) :
    Inv c (changeState m target).2 := by
  rcases changeState_cases m target with hd | ⟨ts, hd⟩
  · rw [changeState_unknown m target hd]; exact h
  · obtain ⟨last, _, hl, _⟩ := h.last_entry
    rw [changeState_known m target ts last hd hl]
    refine ⟨h.config_eq, h.states_eq, h.initial_known, hd, ?_, ?_, h.undo_valid, ?_⟩
    · simp
    · intro s hs
      simp only [List.mem_append, List.mem_singleton] at hs
      rcases hs with hs | hs
      · exact h.history_valid s hs
      · exact ⟨_, hs, ts, hd⟩
    · intro _
      exact ⟨_, getLastElement_append_singleton _ _, rfl⟩

theorem trigger_cases (m : FSM) (event : String) :
    (∃ e, trigger m event = (.thrown e, m)) ∨
    ∃ target, trigger m event = changeState m target := by
  cases ha : m.availableTransitions with
  | none => exact Or.inl ⟨.typeError, by simp [trigger, ha]⟩
  | some available =>
    cases hr : readProperty available event with
    | absent => exact Or.inl ⟨.noSuchTransition, by simp [trigger, ha, hr]⟩
    | inherited name => exact Or.inr ⟨.inherited name, by simp [trigger, ha, hr]⟩
    | own dest =>
      by_cases ht : truthy (some dest) = true
      · exact Or.inr ⟨.str dest, by simp [trigger, ha, hr, ht]⟩
      · exact Or.inl ⟨.noSuchTransition, by simp [trigger, ha, hr, ht]⟩

theorem Inv.after_trigger {c : Config} {m : FSM} (h : Inv c m) (event : String) :
    Inv c (trigger m event).2 := by
  rcases trigger_cases m event with ⟨e, he⟩ | ⟨target, ht⟩
  · rw [he]; exact h
  · rw [ht]; exact h.after_changeState target

theorem Inv.after_reset {c : Config} {m : FSM} (h : Inv c m) : Inv c (reset m).2 :=
  h.after_changeState _

theorem undo_shape {c : Config} {m : FSM} (h : Inv c m)
    (h1 : m.history.states.length ≠ 1) :
    ∃ (pre : List Slot) (x : Slot) (e : HistoryEntry) (ts : Option Transitions),
      m.history.states = pre ++ [x] ∧ pre ≠ [] ∧ getLastElement pre = some e ∧
      getAvailableTransitions e.state m.states = .returned ts := by
  obtain ⟨pre, x, hs⟩ := exists_append_singleton_of_ne_nil _ h.history_ne
  have hpre : pre ≠ [] := by
    intro h0
    apply h1
    simp [hs, h0]
  obtain ⟨pre2, hpre2⟩ := getLastElement_mem pre hpre
  have hmem : getLastElement pre ∈ m.history.states := by
    rw [hs, List.mem_append]; left
    rw [hpre2]; simp [getLastElement_append_singleton]
  obtain ⟨e, he, ts, hd⟩ := h.history_valid _ hmem
  exact ⟨pre, x, e, ts, hs, hpre, he, hd⟩

theorem redo_shape {c : Config} {m : FSM} (h : Inv c m)
    (h1 : ¬ (m.undoHistory = [] ∨ m.isEnabledRedo = false)) :
    ∃ (pre : List Slot) (e : HistoryEntry) (ts : Option Transitions),
      m.undoHistory = pre ++ [some e] ∧ m.isEnabledRedo = true ∧
      getAvailableTransitions e.state m.states = .returned ts := by
  have hne : m.undoHistory ≠ [] := fun h0 => h1 (Or.inl h0)
  have hf : m.isEnabledRedo = true := by
    cases hb : m.isEnabledRedo with
    | true => rfl
    | false => exact absurd (Or.inr hb) h1
  obtain ⟨pre, x, hu⟩ := exists_append_singleton_of_ne_nil _ hne
  obtain ⟨e, he, ts, hd⟩ := h.undo_valid x (by rw [hu]; simp)
  subst he
  exact ⟨pre, e, ts, hu, hf, hd⟩

theorem Inv.after_undo {c : Config} {m : FSM} (h : Inv c m) : Inv c (undo m).2 := by
  by_cases h1 : m.history.states.length = 1
  · rw [undo_boundary m h1]; exact h
  · obtain ⟨pre, x, e, ts, hs, hpre, he, hd⟩ := undo_shape h h1
    rw [undo_pop m pre x e ts hs he hd]
    refine ⟨h.config_eq, h.states_eq, h.initial_known, hd, hpre, ?_, ?_, ?_⟩
    · intro s hmem2
      exact h.history_valid s (by rw [hs]; exact List.mem_append_left _ hmem2)
    · intro s hmem2
      simp only [List.mem_append, List.mem_singleton] at hmem2
      rcases hmem2 with h3 | h3
      · exact h.undo_valid s h3
      · exact h.history_valid s (by rw [hs, h3]; simp)
    · intro _
      exact ⟨e, he, rfl⟩

theorem Inv.after_redo {c : Config} {m : FSM} (h : Inv c m) : Inv c (redo m).2 := by
  by_cases h1 : m.undoHistory = [] ∨ m.isEnabledRedo = false
  · rw [redo_boundary m h1]; exact h
  · obtain ⟨pre, e, ts, hu, hf, hd⟩ := redo_shape h h1
    rw [redo_push m pre e ts hu hf hd]
    refine ⟨h.config_eq, h.states_eq, h.initial_known, hd, ?_, ?_, ?_, ?_⟩
    · simp
    · intro s hmem
      simp only [List.mem_append, List.mem_singleton] at hmem
      rcases hmem with h3 | h3
      · exact h.history_valid s h3
      · exact ⟨e, h3, ts, hd⟩
    · intro s hmem
      exact h.undo_valid s (by rw [hu]; exact List.mem_append_left _ hmem)
    · intro _
      exact ⟨e, getLastElement_append_singleton _ _, rfl⟩

theorem Inv.after_clearHistory {c : Config} {m : FSM} (h : Inv c m) :
    Inv c (clearHistory m).2 := by
  obtain ⟨ts, hts⟩ := h.initial_known
  refine ⟨h.config_eq, h.states_eq, h.initial_known, h.state_known, ?_, ?_, ?_, ?_⟩
  · simp [FiniteStateMachine.clearHistory, initializeHistory]
  · intro s hs
    simp [FiniteStateMachine.clearHistory, initializeHistory] at hs
    refine ⟨_, hs, ts, ?_⟩
    show getAvailableTransitions (.str m.config.initial) m.states = .returned ts
    rw [h.states_eq, h.config_eq]; exact hts
  · intro s hs
    simp [FiniteStateMachine.clearHistory] at hs
  · intro h2
    simp [FiniteStateMachine.clearHistory, initializeHistory] at h2

theorem perform_snd (m : FSM) (call : Call) :
    (perform m call).2 =
      match call with
      | .getState => m
      | .changeState s => (changeState m (.str s)).2
      | .trigger ev => (trigger m ev).2
      | .reset => (reset m).2
      | .getStates _ => m
      | .undo => (undo m).2
      | .redo => (redo m).2
      | .clearHistory => (clearHistory m).2 := by
  cases call <;> simp only [perform] <;> split <;> simp_all

theorem Inv.after_perform {c : Config} {m : FSM} (h : Inv c m) (call : Call) :
    Inv c (perform m call).2 := by
  rw [perform_snd]
  cases call with
  | getState => exact h
  | changeState s => exact h.after_changeState _
  | trigger ev => exact h.after_trigger ev
  | reset => exact h.after_reset
  | getStates _ => exact h
  | undo => exact h.after_undo
  | redo => exact h.after_redo
  | clearHistory => exact h.after_clearHistory

theorem Reachable.invariant {c : Config} {m : FSM} (h : Reachable c m) : Inv c m := by
  induction h with
  | init m h => exact Inv.of_new h
  | step m call _ ih => exact ih.after_perform call

/-! ## A history grown by transitions only -/

theorem Stacked.of_fresh {c : Config} {m : FSM} (h : FSM.new (some c) = .returned m) :
    Stacked c ⟨1, .str c.initial⟩ 0 m := by
  refine ⟨Inv.of_new h, ?_, ?_⟩
  all_goals
    obtain ⟨ts, _, rfl⟩ := new_returned h
    simp [initializeHistory, getLastElement]

theorem changeState_returned (m : FSM) (target : JSValue)
    (hret : (changeState m target).1.isReturned = true) :
    ∃ ts, getAvailableTransitions target m.states = .returned ts := by
  rcases changeState_cases m target with hd | hd
  · rw [changeState_unknown m target hd] at hret
    simp [Outcome.isReturned] at hret
  · exact hd

theorem Stacked.grow_changeState {c : Config} {first : HistoryEntry} {n : Nat} {m : FSM}
    (h : Stacked c first n m) (target : JSValue)
    (hret : (changeState m target).1.isReturned = true) :
    Stacked c first (n + 1) (changeState m target).2 := by
  have hinv := h.inv.after_changeState target
  obtain ⟨ts, hd⟩ := changeState_returned m target hret
  obtain ⟨last, _, hl, _⟩ := h.inv.last_entry
  obtain ⟨rest, hrest, hlen⟩ := h.shape
  rw [changeState_known m target ts last hd hl] at hinv ⊢
  refine ⟨hinv, ?_, ?_⟩
  · exact ⟨rest ++ [some ⟨last.id + 1, target⟩], by simp [hrest], by simp [hlen]⟩
  · exact ⟨_, getLastElement_append_singleton _ _, rfl⟩

theorem trigger_returned (m : FSM) (event : String)
    (hret : (trigger m event).1.isReturned = true) :
    ∃ destination, trigger m event = changeState m destination := by
  rcases trigger_cases m event with ⟨e, he⟩ | h
  · rw [he] at hret
    simp [Outcome.isReturned] at hret
  · exact h

theorem perform_changeState_fst (m : FSM) (s : String) :
    (perform m (.changeState s)).1.isReturned = (changeState m (.str s)).1.isReturned := by
  simp only [perform]
  split <;> simp_all [Outcome.isReturned]

theorem perform_trigger_fst (m : FSM) (ev : String) :
    (perform m (.trigger ev)).1.isReturned = (trigger m ev).1.isReturned := by
  simp only [perform]
  split <;> simp_all [Outcome.isReturned]

theorem perform_reset_fst (m : FSM) :
    (perform m .reset).1.isReturned = (reset m).1.isReturned := by
  simp only [perform]
  split <;> simp_all [Outcome.isReturned]

theorem Stacked.grow_perform {c : Config} {first : HistoryEntry} {n : Nat} {m : FSM}
    (h : Stacked c first n m) (call : Call) (hk : isTransitionCall call = true)
    (hret : (perform m call).1.isReturned = true) :
    Stacked c first (n + 1) (perform m call).2 := by
  rw [perform_snd]
  cases call with
  | changeState s =>
    rw [perform_changeState_fst] at hret
    exact h.grow_changeState _ hret
  | trigger ev =>
    rw [perform_trigger_fst] at hret
    obtain ⟨dest, hdest⟩ := trigger_returned m ev hret
    show Stacked c first (n + 1) (trigger m ev).2
    rw [hdest] at hret ⊢
    exact h.grow_changeState dest hret
  | getState => simp [isTransitionCall] at hk
  | reset => simp [isTransitionCall] at hk
  | getStates _ => simp [isTransitionCall] at hk
  | undo => simp [isTransitionCall] at hk
  | redo => simp [isTransitionCall] at hk
  | clearHistory => simp [isTransitionCall] at hk

theorem Stacked.grow_run {c : Config} {first : HistoryEntry} (calls : List Call) :
    ∀ {n : Nat} {m : FSM}, Stacked c first n m →
      (∀ call ∈ calls, isTransitionCall call = true) →
      allReturn m calls = true →
      Stacked c first (n + calls.length) (run m calls) := by
  induction calls with
  | nil =>
    intro n m h _ _
    simpa [FiniteStateMachine.run] using h
  | cons call rest ih =>
    intro n m h hk hret
    simp only [allReturn, Bool.and_eq_true] at hret
    have h1 := h.grow_perform call (hk call (List.mem_cons_self _ _)) hret.1
    have h2 := ih h1 (fun x hx => hk x (List.mem_cons_of_mem _ hx)) hret.2
    have hlen : n + (call :: rest).length = n + 1 + rest.length := by
      simp only [List.length_cons]; omega
    rw [hlen]
    simpa [FiniteStateMachine.run] using h2

theorem Stacked.undo_succ {c : Config} {first : HistoryEntry} {n : Nat} {m : FSM}
    (h : Stacked c first (n + 1) m) :
    (undo m).1 = .returned true ∧ Stacked c first n (undo m).2 := by
  obtain ⟨rest, hrest, hlen⟩ := h.shape
  have h1 : m.history.states.length ≠ 1 := by
    rw [hrest]; simp [hlen]
  obtain ⟨pre, x, e, ts, hs, hpre, he, hd⟩ := undo_shape h.inv h1
  have hu := undo_pop m pre x e ts hs he hd
  have hshape : ∃ rest2, pre = some first :: rest2 ∧ rest2.length = n := by
    rw [hrest] at hs
    cases pre with
    | nil => exact absurd rfl hpre
    | cons p pre2 =>
      have hcons : some first :: rest = p :: (pre2 ++ [x]) := by simpa using hs
      injection hcons with hp hrest2
      refine ⟨pre2, by rw [hp], ?_⟩
      rw [hrest2] at hlen
      simpa using hlen
  refine ⟨by rw [hu], ?_, ?_, ?_⟩
  · exact h.inv.after_undo
  · rw [hu]; exact hshape
  · rw [hu]
    exact ⟨e, he, rfl⟩

theorem Stacked.undo_zero {c : Config} {first : HistoryEntry} {m : FSM}
    (h : Stacked c first 0 m) :
    undo m = (.returned false, m) ∧ m.state = first.state := by
  obtain ⟨rest, hrest, hlen⟩ := h.shape
  have h0 : rest = [] := List.length_eq_zero.mp hlen
  subst h0
  refine ⟨undo_boundary m (by simp [hrest]), ?_⟩
  obtain ⟨e, he, hst⟩ := h.current
  rw [hrest] at he
  simp [getLastElement] at he
  rw [← hst, ← he]

theorem Stacked.unwind {c : Config} {first : HistoryEntry} (n : Nat) :
    ∀ {m : FSM}, Stacked c first n m →
      (∀ k, k < n → (undo (undoTimes k m)).1 = .returned true) ∧
      Stacked c first 0 (undoTimes n m) := by
  induction n with
  | zero =>
    intro m h
    exact ⟨fun k hk => absurd hk (Nat.not_lt_zero k), h⟩
  | succ n ih =>
    intro m h
    obtain ⟨h1, h2⟩ := h.undo_succ
    obtain ⟨h3, h4⟩ := ih h2
    refine ⟨?_, h4⟩
    intro k hk
    cases k with
    | zero => exact h1
    | succ k => exact h3 k (by omega)

/-! ## Undo followed by redo -/

theorem redoTimes_succ (k : Nat) : ∀ m : FSM,
    redoTimes (k + 1) m = (redo (redoTimes k m)).2 := by
  induction k with
  | zero => intro m; rfl
  | succ k ih =>
    intro m
    show redoTimes (k + 1) (redo m).2 = (redo (redoTimes k (redo m).2)).2
    exact ih (redo m).2

theorem undo_returned_true {c : Config} {m : FSM} (h : Inv c m)
    (hret : (undo m).1 = .returned true) :
    ∃ (pre : List Slot) (ex e : HistoryEntry) (ts : Option Transitions),
      m.history.states = pre ++ [some ex] ∧ ex.state = m.state ∧
      getAvailableTransitions ex.state m.states = .returned m.availableTransitions ∧
      undo m =
        (.returned true,
          { m with history := { currentID := m.history.currentID - 1, states := pre }
                   undoHistory := m.undoHistory ++ [some ex]
                   state := e.state
                   availableTransitions := ts
                   isEnabledRedo := true }) := by
  by_cases h1 : m.history.states.length = 1
  · rw [undo_boundary m h1] at hret
    simp at hret
  · obtain ⟨pre, x, e, ts, hs, hpre, he, hd⟩ := undo_shape h h1
    have hlen : 2 ≤ m.history.states.length := by
      have := List.length_pos.mpr hpre
      simp [hs]; omega
    obtain ⟨ex, hex, hst⟩ := h.last_state hlen
    rw [hs, getLastElement_append_singleton] at hex
    subst hex
    refine ⟨pre, ex, e, ts, hs, hst, by rw [hst]; exact h.state_known, ?_⟩
    exact undo_pop m pre (some ex) e ts hs he hd

theorem undo_redo_roundtrip {c : Config} (k : Nat) :
    ∀ m : FSM, Inv c m →
      (∀ i, i < k → (undo (undoTimes i m)).1 = .returned true) →
      (∀ i, i < k → (redo (redoTimes i (undoTimes k m))).1 = .returned true) ∧
      Inv c (redoTimes k (undoTimes k m)) ∧
      (redoTimes k (undoTimes k m)).history.states = m.history.states ∧
      (redoTimes k (undoTimes k m)).undoHistory = m.undoHistory ∧
      (1 ≤ k →
        (redoTimes k (undoTimes k m)).state = m.state ∧
        (redoTimes k (undoTimes k m)).availableTransitions = m.availableTransitions ∧
        (redoTimes k (undoTimes k m)).isEnabledRedo = true) := by
  induction k with
  | zero =>
    intro m h _
    exact ⟨fun i hi => absurd hi (Nat.not_lt_zero i), h, rfl, rfl,
      fun h1 => absurd h1 (by decide)⟩
  | succ k ih =>
    intro m h hundo
    have hfirst : (undo m).1 = .returned true := hundo 0 (Nat.succ_pos k)
    obtain ⟨pre, ex, e, ts, hs, hst, hdx, hu⟩ := undo_returned_true h hfirst
    have hinv1 : Inv c (undo m).2 := h.after_undo
    have hrest : ∀ i, i < k → (undo (undoTimes i (undo m).2)).1 = .returned true :=
      fun i hi => hundo (i + 1) (Nat.succ_lt_succ hi)
    obtain ⟨hredo, hinv2, hhist, hstack, hlive⟩ := ih (undo m).2 hinv1 hrest
    have hflag : (redoTimes k (undoTimes k (undo m).2)).isEnabledRedo = true := by
      rcases Nat.eq_zero_or_pos k with h0 | hpos
      · subst h0
        show (undo m).2.isEnabledRedo = true
        rw [hu]
      · exact (hlive hpos).2.2
    have hstack2 : (redoTimes k (undoTimes k (undo m).2)).undoHistory
        = m.undoHistory ++ [some ex] := by
      rw [hstack, hu]
    have hhist2 : (redoTimes k (undoTimes k (undo m).2)).history.states = pre := by
      rw [hhist, hu]
    have hstates : (redoTimes k (undoTimes k (undo m).2)).states = m.states := by
      rw [hinv2.states_eq, h.states_eq]
    have hlast := redo_push (redoTimes k (undoTimes k (undo m).2)) m.undoHistory ex
      m.availableTransitions hstack2 hflag (by rw [hstates]; exact hdx)
    have hunfold : redoTimes (k + 1) (undoTimes (k + 1) m)
        = (redo (redoTimes k (undoTimes k (undo m).2))).2 := by
      rw [redoTimes_succ]; rfl
    refine ⟨?_, ?_, ?_, ?_, ?_⟩
    · intro i hi
      rcases Nat.lt_succ_iff_lt_or_eq.mp hi with hlt | heq
      · exact hredo i hlt
      · subst heq
        show (redo (redoTimes i (undoTimes i (undo m).2))).1 = .returned true
        rw [hlast]
    · rw [hunfold]; exact hinv2.after_redo
    · rw [hunfold, hlast]
      show (redoTimes k (undoTimes k (undo m).2)).history.states ++ [some ex]
        = m.history.states
      rw [hhist2, hs]
    · rw [hunfold, hlast]
    · intro _
      rw [hunfold, hlast]
      exact ⟨hst, rfl, hflag⟩

/-! ## Concrete machines and manual calls -/

theorem new_abcConfig : FSM.new (some abcConfig) = .returned abcMachine := by decide

theorem new_emptyNameConfig : FSM.new (some emptyNameConfig) = .returned emptyNameMachine := by
  decide

theorem Reachable.after_run {c : Config} (calls : List Call) :
    ∀ {m : FSM}, Reachable c m → Reachable c (run m calls) := by
  induction calls with
  | nil => intro m h; exact h
  | cons call rest ih =>
    intro m h
    exact ih (Reachable.step m call h)

theorem reachable_abc (calls : List Call) : Reachable abcConfig (run abcMachine calls) :=
  Reachable.after_run calls (Reachable.init _ new_abcConfig)

theorem manual_call_clears_flag {c : Config} {m : FSM} (h : Inv c m) (call : Call)
    (hcall : isManualCall call = true)
    (hret : (perform m call).1.isReturned = true) :
    (perform m call).2.isEnabledRedo = false := by
  have key : ∀ target, (changeState m target).1.isReturned = true →
      (changeState m target).2.isEnabledRedo = false := by
    intro target ht
    obtain ⟨ts, hd⟩ := changeState_returned m target ht
    obtain ⟨last, _, hl, _⟩ := h.last_entry
    rw [changeState_known m target ts last hd hl]
  rw [perform_snd]
  cases call with
  | changeState s =>
    rw [perform_changeState_fst] at hret
    exact key _ hret
  | trigger ev =>
    rw [perform_trigger_fst] at hret
    obtain ⟨dest, hdest⟩ := trigger_returned m ev hret
    show (trigger m ev).2.isEnabledRedo = false
    rw [hdest] at hret ⊢
    exact key dest hret
  | reset =>
    rw [perform_reset_fst] at hret
    exact key _ hret
  | getState => simp [isManualCall] at hcall
  | getStates _ => simp [isManualCall] at hcall
  | undo => simp [isManualCall] at hcall
  | redo => simp [isManualCall] at hcall
  | clearHistory => simp [isManualCall] at hcall

/-! # The claims -/

/-! ## Construction -/

/-- C1: for every non-null configuration whose initial is a key of states,
construction succeeds and the new machine has getState equal to
config.initial, availableTransitions equal to states[initial].transitions,
history equal to the single entry with id 1 and state initial, currentID 1,
an empty undo stack and the redo flag false. -/
theorem new_valid_config (c : Config) (h : c.initial ∈ keys c.states) :
    ∃ m, FSM.new (some c) = .returned m ∧
      getState m = .str c.initial ∧
      getAvailableTransitions (.str c.initial) c.states = .returned m.availableTransitions ∧
      (∃ d, c.states.lookup c.initial = some d ∧
        m.availableTransitions = some d.transitions) ∧
      m.history = { currentID := 1
                    states := [some { id := 1, state := .str c.initial }] } ∧
      m.undoHistory = [] ∧
      m.isEnabledRedo = false := by
  obtain ⟨d, hd⟩ := exists_lookup_of_mem_keys c.states c.initial h
  have hav := getAvailableTransitions_of_lookup c.states c.initial d hd
  refine ⟨{ config := c, state := .str c.initial, states := c.states,
            availableTransitions := some d.transitions,
            history := initializeHistory (.str c.initial), undoHistory := [],
            isEnabledRedo := false, transitions := parseTransitions c.states }, ?_⟩
  refine ⟨by simp [FSM.new, hav], rfl, hav, ⟨d, hd, rfl⟩, rfl, rfl, rfl⟩

theorem new_valid_config_witness :
    "idle" ∈ keys scenarioConfig.states ∧
    ∃ m, FSM.new (some scenarioConfig) = .returned m ∧
      getState m = .str scenarioConfig.initial ∧
      getAvailableTransitions (.str scenarioConfig.initial) scenarioConfig.states
        = .returned m.availableTransitions ∧
      (∃ d, scenarioConfig.states.lookup scenarioConfig.initial = some d ∧
        m.availableTransitions = some d.transitions) ∧
      m.history = { currentID := 1
                    states := [some { id := 1, state := .str scenarioConfig.initial }] } ∧
      m.undoHistory = [] ∧
      m.isEnabledRedo = false :=
  ⟨by decide, new_valid_config scenarioConfig (by decide)⟩

/-! ## Failing calls -/

/-- For an event that is neither a key of availableTransitions nor a name
inherited from Object.prototype, trigger throws the no-such-transition error
and leaves the machine as it was. -/
theorem trigger_unknown_event (m : FSM) (event : String) (ts : Transitions)
    (hts : m.availableTransitions = some ts)
    (he : event ∉ keys ts) (hp : event ∉ objectPrototypeKeys) :
    trigger m event = (.thrown .noSuchTransition, m) := by
  simp [trigger, hts, readProperty_absent ts event he hp]

/-- C2: the code at the failing input.  On the fresh abc machine the current
state's transitions has no key at all, yet trigger on the event toString
finds the member every object inherits under that name, passes the guard and
calls changeState with it, which throws 'Does not exist such state', not the
no-such-transition error 'Current state does not exist'.  On the machine of
objectNameConfig, trigger on the event __proto__ (not a key either) finds
Object.prototype, whose property key is the configured state name
[object Object]: the call returns, and the machine has moved and gained a
history entry. -/
theorem trigger_inherited_event :
    Reachable abcConfig abcMachine ∧
    getAvailableTransitions abcMachine.state abcMachine.states = .returned (some []) ∧
    abcMachine.availableTransitions = some [] ∧
    "toString" ∉ keys ([] : Transitions) ∧
    trigger abcMachine "toString" = (.thrown .noSuchState, abcMachine) ∧
    trigger abcMachine "toString" ≠ (.thrown .noSuchTransition, abcMachine) ∧
    FSMError.noSuchState.message = "Does not exist such state" ∧
    FSMError.noSuchTransition.message = "Current state does not exist" ∧
    Reachable objectNameConfig objectNameMachine ∧
    objectNameMachine.availableTransitions = some [] ∧
    "__proto__" ∉ keys ([] : Transitions) ∧
    trigger objectNameMachine "__proto__" =
      (.returned (),
        { objectNameMachine with
            state := .inherited "__proto__"
            availableTransitions := some []
            history := { currentID := 2
                         states := [some ⟨1, .str "a"⟩, some ⟨2, .inherited "__proto__"⟩] } }) :=
  ⟨Reachable.init _ new_abcConfig, by decide, by decide, by decide, by decide, by decide,
    by decide, by decide, Reachable.init _ (by decide), by decide, by decide, by decide⟩

/-- For a target that is neither a key of states nor a name inherited from
Object.prototype, changeState throws the unknown-state error and leaves the
machine as it was. -/
theorem changeState_unknown_target (m : FSM) (target : String)
    (h : target ∉ keys m.states) (hp : target ∉ objectPrototypeKeys) :
    changeState m (.str target) = (.thrown .noSuchState, m) :=
  changeState_unknown m (.str target) (readProperty_absent m.states target h hp)

/-- C3: the code at the failing input.  On the fresh abc machine the target
toString is not a key of states, yet states['toString'] is the inherited
member, which is truthy: changeState returns, the current state is toString,
availableTransitions is undefined, and the history has gained the entry of
id 2 and state toString. -/
theorem changeState_inherited_target :
    Reachable abcConfig abcMachine ∧
    "toString" ∉ keys abcMachine.states ∧
    changeState abcMachine (.str "toString") =
      (.returned (),
        { abcMachine with
            state := .str "toString"
            availableTransitions := none
            history := { currentID := 2
                         states := [some ⟨1, .str "a"⟩, some ⟨2, .str "toString"⟩] } }) ∧
    changeState abcMachine (.str "toString") ≠ (.thrown .noSuchState, abcMachine) ∧
    getState (changeState abcMachine (.str "toString")).2 = .str "toString" ∧
    FSMError.noSuchState.message = "Does not exist such state" :=
  ⟨Reachable.init _ new_abcConfig, by decide, by decide, by decide, by decide, by decide⟩

/-! ## trigger and reset against changeState -/

/-- C4: the code at the failing input.  On the machine built on
emptyNameConfig the event e is a key of the current state's transitions and
its destination, the empty string, is a key of states; changeState on that
destination returns and moves the machine there, while trigger on e throws
the no-such-transition error and changes nothing. -/
theorem trigger_empty_destination_differs :
    Reachable emptyNameConfig emptyNameMachine ∧
    getAvailableTransitions emptyNameMachine.state emptyNameMachine.states
      = .returned (some [("e", "")]) ∧
    emptyNameMachine.availableTransitions = some [("e", "")] ∧
    "e" ∈ keys [("e", "")] ∧
    List.lookup "e" [("e", "")] = some "" ∧
    "" ∈ keys emptyNameMachine.states ∧
    trigger emptyNameMachine "e" = (.thrown .noSuchTransition, emptyNameMachine) ∧
    changeState emptyNameMachine (.str "") =
      (.returned (),
        { emptyNameMachine with
            state := .str ""
            availableTransitions := some []
            history := { currentID := 2
                         states := [some ⟨1, .str "a"⟩, some ⟨2, .str ""⟩] } }) ∧
    trigger emptyNameMachine "e" ≠ changeState emptyNameMachine (.str "") :=
  ⟨Reachable.init _ new_emptyNameConfig, by decide, by decide, by decide, by decide,
    by decide, by decide, by decide, by decide⟩

/-- In every reachable machine, for an event that is a key of the current
state's transitions with a destination other than the empty string, trigger
is changeState on that destination; reset is changeState on config.initial,
and it returns and appends one history entry. -/
theorem trigger_reset_as_changeState (c : Config) (m : FSM) (hr : Reachable c m) :
    (∀ event ts destination,
        m.availableTransitions = some ts →
        ts.lookup event = some destination →
        destination ≠ "" →
        trigger m event = changeState m (.str destination)) ∧
    reset m = changeState m (.str c.initial) ∧
    ∃ last, getLastElement m.history.states = some last ∧
      (reset m).1 = .returned () ∧
      (reset m).2.history.states
        = m.history.states ++ [some { id := last.id + 1, state := .str c.initial }] := by
  have hinv := hr.invariant
  refine ⟨?_, ?_, ?_⟩
  · intro event ts destination hts hl hne
    simp [trigger, hts, readProperty_of_lookup ts event destination hl, truthy, hne]
  · simp [reset, hinv.config_eq]
  · obtain ⟨last, _, hl, _⟩ := hinv.last_entry
    obtain ⟨ts, hd⟩ := hinv.initial_known
    have hd2 : getAvailableTransitions (.str c.initial) m.states = .returned ts := by
      rw [hinv.states_eq]; exact hd
    have hreset : reset m = changeState m (.str c.initial) := by
      simp [reset, hinv.config_eq]
    rw [hreset, changeState_known m _ ts last hd2 hl]
    exact ⟨last, hl, rfl, rfl⟩

/-! ## A successful changeState -/

/-- C5: in every reachable machine, for every target that is a key of states,
changeState(target) returns, and the machine after it differs from the
machine before it exactly in: state is target, availableTransitions is
states[target].transitions, history is the old history with the one entry of
id (old last id + 1) and state target appended, currentID is that new id, and
the redo flag is false; the undo stack is what it was. -/
theorem changeState_known_target (c : Config) (m : FSM) (hr : Reachable c m)
    (target : String) (h : target ∈ keys m.states) :
    ∃ d last, m.states.lookup target = some d ∧
      getLastElement m.history.states = some last ∧
      changeState m (.str target) =
        (.returned (),
          { m with state := .str target
                   availableTransitions := some d.transitions
                   history :=
                     { currentID := last.id + 1
                       states := m.history.states
                         ++ [some { id := last.id + 1, state := .str target }] }
                   isEnabledRedo := false }) ∧
      (changeState m (.str target)).2.undoHistory = m.undoHistory := by
  obtain ⟨d, hd⟩ := exists_lookup_of_mem_keys m.states target h
  obtain ⟨last, _, hl, _⟩ := hr.invariant.last_entry
  have hav := getAvailableTransitions_of_lookup m.states target d hd
  refine ⟨d, last, hd, hl, changeState_known m _ _ last hav hl, ?_⟩
  rw [changeState_known m _ _ last hav hl]

theorem changeState_known_target_witness :
    Reachable abcConfig abcMachine ∧ "b" ∈ keys abcMachine.states ∧
    ∃ d last, abcMachine.states.lookup "b" = some d ∧
      getLastElement abcMachine.history.states = some last ∧
      changeState abcMachine (.str "b") =
        (.returned (),
          { abcMachine with
              state := .str "b"
              availableTransitions := some d.transitions
              history :=
                { currentID := last.id + 1
                  states := abcMachine.history.states
                    ++ [some { id := last.id + 1, state := .str "b" }] }
              isEnabledRedo := false }) ∧
      (changeState abcMachine (.str "b")).2.undoHistory = abcMachine.undoHistory :=
  ⟨Reachable.init _ new_abcConfig, by decide,
    changeState_known_target abcConfig abcMachine (Reachable.init _ new_abcConfig) "b"
      (by decide)⟩

/-! ## Undo to the bottom of the history -/

/-- C6: for every configuration on which construction succeeds and every
sequence of N trigger/changeState calls that all return when made in turn on
the fresh machine, each of the next N undo() calls returns true, after the
N-th getState() is config.initial, and the (N+1)-th undo() returns false and
leaves the machine, its state included, as it was. -/
theorem undo_all_transitions (c : Config) (m0 : FSM) (calls : List Call)
    (hnew : FSM.new (some c) = .returned m0)
    (hkind : ∀ call ∈ calls, isTransitionCall call = true)
    (hret : allReturn m0 calls = true) :
    (∀ k, k < calls.length → (undo (undoTimes k (run m0 calls))).1 = .returned true) ∧
    getState (undoTimes calls.length (run m0 calls)) = .str c.initial ∧
    undo (undoTimes calls.length (run m0 calls))
      = (.returned false, undoTimes calls.length (run m0 calls)) := by
  have h0 : Stacked c ⟨1, .str c.initial⟩ 0 m0 := Stacked.of_fresh hnew
  have h1 := Stacked.grow_run calls h0 hkind hret
  rw [Nat.zero_add] at h1
  obtain ⟨h2, h3⟩ := Stacked.unwind calls.length h1
  obtain ⟨h4, h5⟩ := h3.undo_zero
  exact ⟨h2, h5, h4⟩

theorem undo_all_transitions_witness :
    FSM.new (some abcConfig) = .returned abcMachine ∧
    (∀ call ∈ [Call.changeState "b", Call.changeState "c"],
        isTransitionCall call = true) ∧
    allReturn abcMachine [Call.changeState "b", Call.changeState "c"] = true ∧
    (∀ k, k < [Call.changeState "b", Call.changeState "c"].length →
      (undo (undoTimes k (run abcMachine [Call.changeState "b", Call.changeState "c"]))).1
        = .returned true) ∧
    getState (undoTimes [Call.changeState "b", Call.changeState "c"].length
        (run abcMachine [Call.changeState "b", Call.changeState "c"]))
      = .str abcConfig.initial ∧
    undo (undoTimes [Call.changeState "b", Call.changeState "c"].length
        (run abcMachine [Call.changeState "b", Call.changeState "c"]))
      = (.returned false,
          undoTimes [Call.changeState "b", Call.changeState "c"].length
            (run abcMachine [Call.changeState "b", Call.changeState "c"])) :=
  ⟨new_abcConfig, by decide, by decide,
    undo_all_transitions abcConfig abcMachine [Call.changeState "b", Call.changeState "c"]
      new_abcConfig (by decide) (by decide)⟩

/-! ## Redo after undo -/

/-- C7: in every reachable machine and for every k of at least 1, if k
consecutive undo() calls each return true, then the next k consecutive
redo() calls each return true, and afterwards the current state, the
history sequence and the undo stack (and availableTransitions) are exactly
what they were before the first of those undos. -/
theorem redo_restores_undone (c : Config) (m : FSM) (hr : Reachable c m)
    (k : Nat) (hk : 1 ≤ k)
    (hundo : ∀ i, i < k → (undo (undoTimes i m)).1 = .returned true) :
    (∀ i, i < k → (redo (redoTimes i (undoTimes k m))).1 = .returned true) ∧
    getState (redoTimes k (undoTimes k m)) = getState m ∧
    (redoTimes k (undoTimes k m)).history.states = m.history.states ∧
    (redoTimes k (undoTimes k m)).undoHistory = m.undoHistory ∧
    (redoTimes k (undoTimes k m)).availableTransitions = m.availableTransitions := by
  obtain ⟨h1, _, h3, h4, h5⟩ := undo_redo_roundtrip k m hr.invariant hundo
  obtain ⟨h6, h7, _⟩ := h5 hk
  exact ⟨h1, h6, h3, h4, h7⟩

theorem redo_restores_undone_witness :
    Reachable abcConfig abcAtC ∧ 1 ≤ 2 ∧
    (∀ i, i < 2 → (undo (undoTimes i abcAtC)).1 = .returned true) ∧
    (∀ i, i < 2 → (redo (redoTimes i (undoTimes 2 abcAtC))).1 = .returned true) ∧
    getState (redoTimes 2 (undoTimes 2 abcAtC)) = getState abcAtC ∧
    (redoTimes 2 (undoTimes 2 abcAtC)).history.states = abcAtC.history.states ∧
    (redoTimes 2 (undoTimes 2 abcAtC)).undoHistory = abcAtC.undoHistory ∧
    (redoTimes 2 (undoTimes 2 abcAtC)).availableTransitions
      = abcAtC.availableTransitions :=
  ⟨reachable_abc _, by decide, by decide,
    redo_restores_undone abcConfig abcAtC (reachable_abc _) 2 (by decide) (by decide)⟩

/-! ## Redo after a manual transition -/

/-- C8, as stated, fails: on the abc machine moved to b, undo() returns true;
the changeState call then made names the unknown state d, throws and leaves
the machine as the undo left it, redo flag set; the next redo() returns true
and moves the machine back to b. -/
theorem redo_after_thrown_call :
    Reachable abcConfig abcAtB ∧
    (undo abcAtB).1 = .returned true ∧
    isManualCall (.changeState "d") = true ∧
    perform (undo abcAtB).2 (.changeState "d") = (.thrown .noSuchState, (undo abcAtB).2) ∧
    (redo (perform (undo abcAtB).2 (.changeState "d")).2).1 = .returned true ∧
    getState (perform (undo abcAtB).2 (.changeState "d")).2 = .str "a" ∧
    getState (redo (perform (undo abcAtB).2 (.changeState "d")).2).2 = .str "b" :=
  ⟨reachable_abc _, by decide, by decide, by decide, by decide, by decide, by decide⟩

/-- C8, amended: in every reachable machine, after an undo() that returns
true, if a trigger, changeState or reset call is then made and returns
(does not throw), the next redo() returns false and leaves the machine as
it was, field for field. -/
theorem redo_after_manual_call (c : Config) (m : FSM) (hr : Reachable c m)
    (_hundo : (undo m).1 = .returned true)
    (call : Call) (hcall : isManualCall call = true)
    (hret : (perform (undo m).2 call).1.isReturned = true) :
    redo (perform (undo m).2 call).2 = (.returned false, (perform (undo m).2 call).2) :=
  redo_boundary _ (Or.inr (manual_call_clears_flag hr.invariant.after_undo call hcall hret))

theorem redo_after_manual_call_witness :
    Reachable abcConfig abcAtB ∧
    (undo abcAtB).1 = .returned true ∧
    isManualCall (.changeState "c") = true ∧
    (perform (undo abcAtB).2 (.changeState "c")).1.isReturned = true ∧
    redo (perform (undo abcAtB).2 (.changeState "c")).2
      = (.returned false, (perform (undo abcAtB).2 (.changeState "c")).2) :=
  ⟨reachable_abc _, by decide, by decide, by decide,
    redo_after_manual_call abcConfig abcAtB (reachable_abc _) (by decide)
      (.changeState "c") (by decide) (by decide)⟩

/-! ## Entries left on the undo stack -/

/-- C9: the code at the failing input.  On the abc machine, changeState b,
undo, changeState c: the last call returns, and at that moment the undo
stack holds one entry, that of b.  Then undo returns true, the first redo
returns true and brings back c, and the second redo returns true as well: it
pops the stale entry of b, the undo stack falls to length 0, the machine
re-enters b, and the history reads a, c, b with ids 1, 2, 2. -/
theorem stale_entry_redone :
    Reachable abcConfig abcStale ∧
    (perform (run abcMachine [.changeState "b", .undo]) (.changeState "c")).1
      = .returned .undefined ∧
    abcStale.undoHistory = [some ⟨2, .str "b"⟩] ∧
    (undo abcStale).1 = .returned true ∧
    (redo (run abcStale [.undo])).1 = .returned true ∧
    getState (run abcStale [.undo, .redo]) = .str "c" ∧
    (run abcStale [.undo, .redo]).undoHistory = [some ⟨2, .str "b"⟩] ∧
    (redo (run abcStale [.undo, .redo])).1 = .returned true ∧
    (run abcStale [.undo, .redo, .redo]).undoHistory = [] ∧
    getState (run abcStale [.undo, .redo, .redo]) = .str "b" ∧
    (run abcStale [.undo, .redo, .redo]).history
      = { currentID := 2, states := [some ⟨1, .str "a"⟩, some ⟨2, .str "c"⟩, some ⟨2, .str "b"⟩] } :=
  ⟨reachable_abc _, by decide, by decide, by decide, by decide, by decide, by decide,
    by decide, by decide, by decide, by decide⟩

/-! ## Undo after clearHistory -/

/-- C10: the code at the failing input.  On the abc machine, changeState b
then clearHistory leaves the current state b over a history holding the one
entry of a.  The target c is a key of states and changeState c returns; the
undo() that follows returns true, and getState() is then a, not the state b
the machine was in before the changeState. -/
theorem undo_after_clearHistory :
    Reachable abcConfig abcCleared ∧
    getState abcCleared = .str "b" ∧
    abcCleared.history = { currentID := 1, states := [some ⟨1, .str "a"⟩] } ∧
    "c" ∈ keys abcCleared.states ∧
    (changeState abcCleared (.str "c")).1 = .returned () ∧
    (undo (changeState abcCleared (.str "c")).2).1 = .returned true ∧
    getState (undo (changeState abcCleared (.str "c")).2).2 = .str "a" ∧
    getState (undo (changeState abcCleared (.str "c")).2).2 ≠ getState abcCleared :=
  ⟨reachable_abc _, by decide, by decide, by decide, by decide, by decide, by decide,
    by decide⟩

/-! ## Concrete machines of the later claims -/

/-! ## Concrete machines of the later claims -/

theorem new_scenarioConfig : FSM.new (some scenarioConfig) = .returned scenarioMachine := by
  decide

theorem new_sharedEventConfig :
    FSM.new (some sharedEventConfig) = .returned sharedEventMachine := by
  decide

theorem new_emptyEventConfig :
    FSM.new (some emptyEventConfig) = .returned emptyEventMachine := by
  decide

theorem new_protoEventConfig :
    FSM.new (some protoEventConfig) = .returned protoEventMachine := by
  decide

theorem getStates_named_event (m : FSM) (event : String) (h : event ≠ "") :
    getStates m (some event)
      = (m.states.filter (fun s => decide (event ∈ keys s.2.transitions))).map Prod.fst := by
  have ht : truthy (some event) = true := by simp [truthy, h]
  simp only [getStates, ht, Bool.not_true, Bool.false_eq_true, if_false]
  congr 1
  apply List.filter_congr
  intro s _
  simp [List.contains_iff_exists_mem_beq]

/-! ## getStates -/

/-- C11: in every reachable machine, getStates() called with no argument
returns exactly the keys of config.states in configuration iteration order,
each once when the keys of the configuration are distinct (as the keys of an
object are), whatever the current state and the history, and the machine
after the call is the machine before it. -/
theorem getStates_no_argument (c : Config) (m : FSM) (hr : Reachable c m) :
    getStates m none = keys c.states ∧
    ((keys c.states).Nodup → (getStates m none).Nodup) ∧
    perform m (.getStates none) = (.returned (.strings (keys c.states)), m) := by
  have h1 : getStates m none = keys c.states := by
    simp [getStates, truthy, hr.invariant.states_eq]
  refine ⟨h1, fun hn => by rw [h1]; exact hn, ?_⟩
  simp [perform, h1]

theorem getStates_no_argument_witness :
    Reachable abcConfig abcCleared ∧
    getStates abcCleared none = keys abcConfig.states ∧
    ((keys abcConfig.states).Nodup → (getStates abcCleared none).Nodup) ∧
    perform abcCleared (.getStates none)
      = (.returned (.strings (keys abcConfig.states)), abcCleared) :=
  ⟨reachable_abc _, getStates_no_argument abcConfig abcCleared (reachable_abc _)⟩

/-- C12: the code at the failing input.  The event named by the empty string
is a key of the transitions of state a only, yet getStates on it returns
both a and b, the same answer as getStates with no argument; and on the abc
machine, where no state has that event, it returns a, b, c instead of the
empty array. -/
theorem getStates_empty_event :
    Reachable emptyEventConfig emptyEventMachine ∧
    (emptyEventMachine.states.filter
        (fun s => decide ("" ∈ keys s.2.transitions))).map Prod.fst = ["a"] ∧
    getStates emptyEventMachine (some "") = ["a", "b"] ∧
    getStates emptyEventMachine (some "") = getStates emptyEventMachine none ∧
    (abcMachine.states.filter
        (fun s => decide ("" ∈ keys s.2.transitions))).map Prod.fst = [] ∧
    getStates abcMachine (some "") = ["a", "b", "c"] :=
  ⟨Reachable.init _ new_emptyEventConfig, by decide, by decide, by decide, by decide,
    by decide⟩

/-! ## clearHistory -/

/-- C13: in every reachable machine, clearHistory() returns, and the machine
after it differs from the machine before it exactly in: history is the single
entry of id 1 and state config.initial with currentID 1, and the undo stack
is empty; the current state, availableTransitions and the redo flag are what
they were. -/
theorem clearHistory_effect (c : Config) (m : FSM) (hr : Reachable c m) :
    clearHistory m =
      (.returned (),
        { m with history := { currentID := 1
                              states := [some { id := 1, state := .str c.initial }] }
                 undoHistory := [] }) ∧
    getState (clearHistory m).2 = getState m ∧
    (clearHistory m).2.availableTransitions = m.availableTransitions ∧
    (clearHistory m).2.isEnabledRedo = m.isEnabledRedo := by
  refine ⟨?_, rfl, rfl, rfl⟩
  simp [clearHistory, initializeHistory, hr.invariant.config_eq]

theorem clearHistory_effect_witness :
    Reachable abcConfig (undo abcAtC).2 ∧
    clearHistory (undo abcAtC).2 =
      (.returned (),
        { (undo abcAtC).2 with
            history := { currentID := 1
                         states := [some { id := 1, state := .str abcConfig.initial }] }
            undoHistory := [] }) ∧
    getState (clearHistory (undo abcAtC).2).2 = getState (undo abcAtC).2 ∧
    (clearHistory (undo abcAtC).2).2.availableTransitions
      = (undo abcAtC).2.availableTransitions ∧
    (clearHistory (undo abcAtC).2).2.isEnabledRedo = (undo abcAtC).2.isEnabledRedo :=
  ⟨reachable_abc [.changeState "b", .changeState "c", .undo],
    clearHistory_effect abcConfig (undo abcAtC).2
      (reachable_abc [.changeState "b", .changeState "c", .undo])⟩

/-! ## Boundary calls of undo and redo -/

theorem undo_returns {c : Config} {m : FSM} (h : Inv c m) :
    (m.history.states.length = 1 ∧ undo m = (.returned false, m)) ∨
    (m.history.states.length ≠ 1 ∧ (undo m).1 = .returned true) := by
  by_cases h1 : m.history.states.length = 1
  · exact Or.inl ⟨h1, undo_boundary m h1⟩
  · right
    refine ⟨h1, ?_⟩
    obtain ⟨pre, x, e, ts, hs, _, he, hd⟩ := undo_shape h h1
    rw [undo_pop m pre x e ts hs he hd]

theorem redo_returns {c : Config} {m : FSM} (h : Inv c m) :
    ((m.undoHistory = [] ∨ m.isEnabledRedo = false) ∧ redo m = (.returned false, m)) ∨
    (¬ (m.undoHistory = [] ∨ m.isEnabledRedo = false) ∧ (redo m).1 = .returned true) := by
  by_cases h1 : m.undoHistory = [] ∨ m.isEnabledRedo = false
  · exact Or.inl ⟨h1, redo_boundary m h1⟩
  · right
    refine ⟨h1, ?_⟩
    obtain ⟨pre, e, ts, hu, hf, hd⟩ := redo_shape h h1
    rw [redo_push m pre e ts hu hf hd]

/-- C14: in every reachable machine, undo() returns false exactly when the
history holds exactly one entry, redo() returns false exactly when the undo
stack is empty or the redo flag is false, and after a call that returns
false the machine is the machine before the call, field for field. -/
theorem boundary_calls (c : Config) (m : FSM) (hr : Reachable c m) :
    ((undo m).1 = .returned false ↔ m.history.states.length = 1) ∧
    ((redo m).1 = .returned false ↔ (m.undoHistory = [] ∨ m.isEnabledRedo = false)) ∧
    ((undo m).1 = .returned false → (undo m).2 = m) ∧
    ((redo m).1 = .returned false → (redo m).2 = m) := by
  have hu := undo_returns hr.invariant
  have hd := redo_returns hr.invariant
  refine ⟨⟨?_, ?_⟩, ⟨?_, ?_⟩, ?_, ?_⟩
  · intro h
    rcases hu with ⟨h1, _⟩ | ⟨_, h2⟩
    · exact h1
    · rw [h2] at h; simp at h
  · intro h
    rw [undo_boundary m h]
  · intro h
    rcases hd with ⟨h1, _⟩ | ⟨_, h2⟩
    · exact h1
    · rw [h2] at h; simp at h
  · intro h
    rw [redo_boundary m h]
  · intro h
    rcases hu with ⟨_, h2⟩ | ⟨_, h2⟩
    · rw [h2]
    · rw [h2] at h; simp at h
  · intro h
    rcases hd with ⟨_, h2⟩ | ⟨_, h2⟩
    · rw [h2]
    · rw [h2] at h; simp at h

theorem boundary_calls_witness :
    Reachable abcConfig abcStale ∧
    ((undo abcStale).1 = .returned false ↔ abcStale.history.states.length = 1) ∧
    ((redo abcStale).1 = .returned false ↔
      (abcStale.undoHistory = [] ∨ abcStale.isEnabledRedo = false)) ∧
    ((undo abcStale).1 = .returned false → (undo abcStale).2 = abcStale) ∧
    ((redo abcStale).1 = .returned false → (redo abcStale).2 = abcStale) :=
  ⟨reachable_abc _, boundary_calls abcConfig abcStale (reachable_abc _)⟩

/-! ## Construction on a configuration without its initial state -/

/-- C15, as stated, fails: on the configuration whose initial state x is not
a key of states, construction does not return a machine; it throws the
TypeError of reading transitions on states[initial]. -/
theorem new_missing_initial_throws :
    missingInitialConfig.initial ∉ keys missingInitialConfig.states ∧
    FSM.new (some missingInitialConfig) = .thrown .typeError ∧
    ¬ ∃ m, FSM.new (some missingInitialConfig) = .returned m :=
  ⟨by decide, by decide, by
    intro ⟨m, hm⟩
    have h : FSM.new (some missingInitialConfig) = .thrown .typeError := by decide
    rw [h] at hm
    exact Outcome.noConfusion hm⟩

/-- C15, amended: construction has no check of its own that initial is a key
of states, and for every non-null configuration whose initial is neither a
key of states nor a name inherited from Object.prototype it fails: the read
of states[initial].transitions in the constructor throws a TypeError (not
the 'Empty config' error) and no machine is produced. -/
theorem new_missing_initial (c : Config) (h : c.initial ∉ keys c.states)
    (hp : c.initial ∉ objectPrototypeKeys) :
    FSM.new (some c) = .thrown .typeError ∧
    (¬ ∃ m, FSM.new (some c) = .returned m) ∧
    FSMError.typeError ≠ FSMError.emptyConfig := by
  have hread := readProperty_absent c.states c.initial h hp
  have hav := getAvailableTransitions_of_absent c.states (.str c.initial) hread
  have hnew : FSM.new (some c) = .thrown .typeError := by
    simp [FSM.new, hav]
  refine ⟨hnew, ?_, by decide⟩
  intro ⟨m, hm⟩
  rw [hnew] at hm
  exact Outcome.noConfusion hm

theorem new_missing_initial_witness :
    missingInitialConfig.initial ∉ keys missingInitialConfig.states ∧
    missingInitialConfig.initial ∉ objectPrototypeKeys ∧
    FSM.new (some missingInitialConfig) = .thrown .typeError ∧
    (¬ ∃ m, FSM.new (some missingInitialConfig) = .returned m) ∧
    FSMError.typeError ≠ FSMError.emptyConfig :=
  ⟨by decide, by decide, new_missing_initial missingInitialConfig (by decide) (by decide)⟩

/-- When initial is not a key of states but a name inherited from
Object.prototype, the read states[initial] yields the inherited member and
construction returns a machine whose availableTransitions is undefined. -/
theorem new_inherited_initial (c : Config) (h : c.initial ∉ keys c.states)
    (hp : c.initial ∈ objectPrototypeKeys) :
    ∃ m, FSM.new (some c) = .returned m ∧ getState m = .str c.initial ∧
      m.availableTransitions = none := by
  have hread := readProperty_inherited c.states c.initial h hp
  have hav : getAvailableTransitions (.str c.initial) c.states = .returned none := by
    simp [getAvailableTransitions, toPropertyKey, hread]
  refine ⟨{ config := c, state := .str c.initial, states := c.states,
            availableTransitions := none,
            history := initializeHistory (.str c.initial), undoHistory := [],
            isEnabledRedo := false, transitions := parseTransitions c.states }, ?_, rfl, rfl⟩
  simp [FSM.new, hav]

/-! ## History ids and currentID -/

/-- C16: the code at the failing input.  On the abc machine, the calls
changeState b, undo, changeState c, undo, redo, redo all return (the undos
and redos return true) and leave the history a, c, b with ids 1, 2, 2: the
first id is 1, but the ids are not strictly increasing and two entries share
the id 2. -/
theorem history_ids_repeat :
    Reachable abcConfig abcStaleRedone ∧
    allReturn abcMachine
      [.changeState "b", .undo, .changeState "c", .undo, .redo, .redo] = true ∧
    abcStaleRedone.history.states
      = [some ⟨1, .str "a"⟩, some ⟨2, .str "c"⟩, some ⟨2, .str "b"⟩] ∧
    entryIds abcStaleRedone.history.states = [1, 2, 2] ∧
    (entryIds abcStaleRedone.history.states).head? = some 1 ∧
    ¬ List.Pairwise (fun a b => a < b) (entryIds abcStaleRedone.history.states) ∧
    ¬ (entryIds abcStaleRedone.history.states).Nodup :=
  ⟨reachable_abc [.changeState "b", .undo, .changeState "c", .undo, .redo, .redo],
    by decide, by decide, by decide, by decide, by decide, by decide⟩

/-- C17: the code at the failing input.  On the abc machine, after
changeState b, undo, changeState c, undo, redo, redo the history ids are
1, 2, 2 with currentID 2; the next undo() returns true, decrements currentID
to 1 and leaves the history a, c whose last entry has id 2, so currentID is
not the id of the last entry. -/
theorem currentID_not_last_id :
    Reachable abcConfig abcStaleUndone ∧
    abcStaleRedone.history.currentID = 2 ∧
    (undo abcStaleRedone).1 = .returned true ∧
    (undo abcStaleRedone).2 = abcStaleUndone ∧
    abcStaleUndone.history
      = { currentID := 1, states := [some ⟨1, .str "a"⟩, some ⟨2, .str "c"⟩] } ∧
    (getLastElement abcStaleUndone.history.states).map (fun e => e.id) = some 2 ∧
    (getLastElement abcStaleUndone.history.states).map (fun e => e.id)
      ≠ some abcStaleUndone.history.currentID :=
  ⟨reachable_abc [.changeState "b", .undo, .changeState "c", .undo, .redo, .redo, .undo],
    by decide, by decide, by decide, by decide, by decide, by decide⟩

/-! ## Lookups of undo and redo are defined -/

/-- In every reachable machine the history is non-empty, every element of
the history and of the undo stack is an entry for whose state the read
states[state].transitions does not throw, and undo() and redo() return a
boolean. -/
theorem undo_redo_never_throw (c : Config) (m : FSM) (hr : Reachable c m) :
    m.history.states ≠ [] ∧
    (∀ s ∈ m.history.states ++ m.undoHistory,
      ∃ e, s = some e ∧ ∃ ts, getAvailableTransitions e.state m.states = .returned ts) ∧
    (∃ last, getLastElement m.history.states = some last) ∧
    (∃ ts, getAvailableTransitions (getState m) m.states = .returned ts) ∧
    (∃ b, (undo m).1 = .returned b) ∧
    (∃ b, (redo m).1 = .returned b) := by
  have h := hr.invariant
  refine ⟨h.history_ne, ?_, ?_, ?_, ?_, ?_⟩
  · intro s hs
    rcases List.mem_append.mp hs with h1 | h1
    · exact h.history_valid s h1
    · exact h.undo_valid s h1
  · obtain ⟨e, _, he, _⟩ := h.last_entry
    exact ⟨e, he⟩
  · exact ⟨m.availableTransitions, h.state_known⟩
  · rcases undo_returns h with ⟨_, h2⟩ | ⟨_, h2⟩
    · exact ⟨false, by rw [h2]⟩
    · exact ⟨true, h2⟩
  · rcases redo_returns h with ⟨_, h2⟩ | ⟨_, h2⟩
    · exact ⟨false, by rw [h2]⟩
    · exact ⟨true, h2⟩

/-- C19: the code at the failing input.  On the abc machine changeState on
toString, which is not a key of states, returns and appends the history
entry of id 2 and state toString; no state descriptor stands behind it, so
availableTransitions is undefined and a trigger then throws a TypeError.
After an undo that entry sits on the undo stack.  So the history, and then
the undo stack, hold an entry whose state is not a key of states, although
undo and redo still return. -/
theorem entry_state_not_a_key :
    Reachable abcConfig (run abcMachine [.changeState "toString"]) ∧
    (perform abcMachine (.changeState "toString")).1 = .returned .undefined ∧
    (run abcMachine [.changeState "toString"]).history.states
      = [some ⟨1, .str "a"⟩, some ⟨2, .str "toString"⟩] ∧
    "toString" ∉ keys (run abcMachine [.changeState "toString"]).states ∧
    "toString" ∉ keys abcConfig.states ∧
    (run abcMachine [.changeState "toString"]).availableTransitions = none ∧
    (trigger (run abcMachine [.changeState "toString"]) "go").1 = .thrown .typeError ∧
    (undo (run abcMachine [.changeState "toString"])).1 = .returned true ∧
    (run abcMachine [.changeState "toString", .undo]).undoHistory
      = [some ⟨2, .str "toString"⟩] ∧
    (redo (run abcMachine [.changeState "toString", .undo])).1 = .returned true :=
  ⟨reachable_abc _, by decide, by decide, by decide, by decide, by decide, by decide,
    by decide, by decide, by decide⟩

/-! ## The flattened transition table -/

theorem lookup_replace_other (acc : Transitions) (k v k2 : String) (h : k2 ≠ k) :
    (replaceValue acc k v).lookup k2 = acc.lookup k2 := by
  induction acc with
  | nil => rfl
  | cons p rest ih =>
    obtain ⟨k1, v1⟩ := p
    by_cases h1 : k1 = k
    · subst h1
      have hne : (k2 == k1) = false := by simpa using h
      simp [replaceValue, List.lookup, hne]
    · simp only [replaceValue, h1, if_false, List.lookup]
      cases (k2 == k1) with
      | true => rfl
      | false => exact ih

theorem lookup_replace_self (acc : Transitions) (k v : String) (h : k ∈ keys acc) :
    (replaceValue acc k v).lookup k = some v := by
  induction acc with
  | nil => simp [keys] at h
  | cons p rest ih =>
    obtain ⟨k1, v1⟩ := p
    by_cases h1 : k1 = k
    · subst h1
      simp [replaceValue, List.lookup]
    · have hne : (k == k1) = false := by
        simpa using fun h2 : k = k1 => h1 h2.symm
      simp only [keys, List.map_cons, List.mem_cons] at h
      rcases h with h | h
      · exact absurd h.symm h1
      · simp only [replaceValue, h1, if_false, List.lookup, hne]
        exact ih h

theorem lookup_insertIndex_other (acc : Transitions) (i : Nat) (k v k2 : String)
    (h : k2 ≠ k) : (insertIndex acc i k v).lookup k2 = acc.lookup k2 := by
  have hne : (k2 == k) = false := by simpa using h
  induction acc with
  | nil => simp [insertIndex, List.lookup, hne]
  | cons p rest ih =>
    obtain ⟨k1, v1⟩ := p
    simp only [insertIndex]
    cases arrayIndex k1 with
    | none => simp [List.lookup, hne]
    | some j =>
      by_cases hj : j < i
      · simp only [hj, if_true, List.lookup]
        cases (k2 == k1) with
        | true => rfl
        | false => exact ih
      · simp [hj, List.lookup, hne]

theorem lookup_insertIndex_self (acc : Transitions) (i : Nat) (k v : String)
    (h : k ∉ keys acc) : (insertIndex acc i k v).lookup k = some v := by
  induction acc with
  | nil => simp [insertIndex, List.lookup]
  | cons p rest ih =>
    obtain ⟨k1, v1⟩ := p
    simp only [keys, List.map_cons, List.mem_cons, not_or] at h
    have hne : (k == k1) = false := by simpa using h.1
    simp only [insertIndex]
    cases arrayIndex k1 with
    | none => simp [List.lookup]
    | some j =>
      by_cases hj : j < i
      · simp only [hj, if_true, List.lookup, hne]
        exact ih h.2
      · simp [hj, List.lookup]

theorem lookup_setProperty_self (a : Transitions) (k v : String) (hk : k ≠ "__proto__") :
    (setProperty a k v).lookup k = some v := by
  unfold setProperty
  simp only [hk, if_false]
  by_cases hmem : k ∈ keys a
  · simp only [hmem, if_true]
    exact lookup_replace_self a k v hmem
  · simp only [hmem, if_false]
    cases arrayIndex k with
    | some i => exact lookup_insertIndex_self a i k v hmem
    | none =>
      simp only []
      rw [List.lookup_append, lookup_eq_none_of_not_mem_keys a k hmem]
      simp [List.lookup]

theorem lookup_setProperty_other (a : Transitions) (k v k2 : String) (h : k2 ≠ k) :
    (setProperty a k v).lookup k2 = a.lookup k2 := by
  unfold setProperty
  by_cases hk : k = "__proto__"
  · simp only [hk, if_true]
  · simp only [hk, if_false]
    by_cases hmem : k ∈ keys a
    · simp only [hmem, if_true]
      exact lookup_replace_other a k v k2 h
    · simp only [hmem, if_false]
      cases arrayIndex k with
      | some i => exact lookup_insertIndex_other a i k v k2 h
      | none =>
        have hne : (k2 == k) = false := by simpa using h
        simp only []
        rw [List.lookup_append]
        cases a.lookup k2 <;> simp [List.lookup, hne]

theorem setProperty_proto (a : Transitions) (v : String) :
    setProperty a "__proto__" v = a := by
  simp [setProperty]

theorem lookup_foldl_setProperty (entries : Transitions) :
    ∀ (acc : Transitions) (k : String), k ≠ "__proto__" →
      (entries.foldl (fun a entry => setProperty a entry.1 entry.2) acc).lookup k
        = (entries.reverse.lookup k).or (acc.lookup k) := by
  induction entries with
  | nil => intro acc k _; simp
  | cons p rest ih =>
    intro acc k hk
    obtain ⟨k1, v1⟩ := p
    simp only [List.foldl_cons, List.reverse_cons]
    rw [ih _ _ hk, List.lookup_append]
    by_cases h : k = k1
    · subst h
      rw [lookup_setProperty_self _ _ _ hk]
      cases rest.reverse.lookup k <;> simp [List.lookup]
    · have hne : (k == k1) = false := by simpa using h
      rw [lookup_setProperty_other _ _ _ _ h]
      cases rest.reverse.lookup k <;> simp [List.lookup, hne]

theorem lookup_foldl_setProperty_proto (entries : Transitions) :
    ∀ acc : Transitions,
      (entries.foldl (fun a entry => setProperty a entry.1 entry.2) acc).lookup "__proto__"
        = acc.lookup "__proto__" := by
  induction entries with
  | nil => intro acc; rfl
  | cons p rest ih =>
    intro acc
    obtain ⟨k1, v1⟩ := p
    simp only [List.foldl_cons]
    rw [ih]
    by_cases h : k1 = "__proto__"
    · rw [h, setProperty_proto]
    · exact lookup_setProperty_other _ _ _ _ (fun h2 => h h2.symm)

theorem lookup_isSome_iff_mem_keys {β : Type} (o : List (String × β)) (k : String) :
    (o.lookup k).isSome = true ↔ k ∈ keys o := by
  constructor
  · intro h
    obtain ⟨v, hv⟩ := Option.isSome_iff_exists.mp h
    exact mem_keys_of_lookup o k v hv
  · intro h
    obtain ⟨v, hv⟩ := exists_lookup_of_mem_keys o k h
    simp [hv]

theorem keys_reverse {β : Type} (o : List (String × β)) (k : String) :
    k ∈ keys o.reverse ↔ k ∈ keys o := by
  simp [keys]

theorem lookup_reverse_of_nodup (l : Transitions) (k : String) (h : (keys l).Nodup) :
    l.reverse.lookup k = l.lookup k := by
  induction l with
  | nil => rfl
  | cons p rest ih =>
    obtain ⟨k1, v1⟩ := p
    simp only [keys, List.map_cons, List.nodup_cons] at h
    rw [List.reverse_cons, List.lookup_append, ih h.2]
    by_cases hk : k = k1
    · subst hk
      have hnone : rest.lookup k = none := lookup_eq_none_of_not_mem_keys rest k h.1
      simp [hnone, List.lookup]
    · have hne : (k == k1) = false := by simpa using hk
      have hcons : List.lookup k ((k1, v1) :: rest) = rest.lookup k := by
        simp [List.lookup, hne]
      have hone : List.lookup k [(k1, v1)] = none := by
        simp [List.lookup, hne]
      rw [hcons, hone]
      cases rest.lookup k <;> rfl

/-- The merge loop of parseTransitions from a given accumulator. -/
theorem merge_lookup_untouched (tables : List Transitions) :
    ∀ (acc : Transitions) (k : String), k ≠ "__proto__" → (∀ t ∈ tables, k ∉ keys t) →
      (tables.foldl
          (fun acc next => next.foldl (fun a entry => setProperty a entry.1 entry.2) acc)
          acc).lookup k = acc.lookup k := by
  induction tables with
  | nil => intro acc k _ _; rfl
  | cons t rest ih =>
    intro acc k hk h
    simp only [List.foldl_cons]
    rw [ih _ k hk (fun t2 ht2 => h t2 (List.mem_cons_of_mem _ ht2))]
    rw [lookup_foldl_setProperty _ _ _ hk]
    have hk2 : k ∉ keys t.reverse := fun hmem =>
      h t (List.mem_cons_self _ _) ((keys_reverse t k).mp hmem)
    rw [lookup_eq_none_of_not_mem_keys _ _ hk2]
    rfl

theorem merge_mem_keys (tables : List Transitions) :
    ∀ (acc : Transitions) (k : String), k ≠ "__proto__" →
      (k ∈ keys (tables.foldl
          (fun acc next => next.foldl (fun a entry => setProperty a entry.1 entry.2) acc)
          acc) ↔ (k ∈ keys acc ∨ ∃ t ∈ tables, k ∈ keys t)) := by
  induction tables with
  | nil => intro acc k _; simp
  | cons t rest ih =>
    intro acc k hk
    simp only [List.foldl_cons]
    rw [ih _ _ hk]
    have h1 : k ∈ keys (t.foldl (fun a entry => setProperty a entry.1 entry.2) acc)
        ↔ (k ∈ keys t ∨ k ∈ keys acc) := by
      rw [← lookup_isSome_iff_mem_keys, lookup_foldl_setProperty _ _ _ hk,
        ← keys_reverse t k, ← lookup_isSome_iff_mem_keys, ← lookup_isSome_iff_mem_keys]
      cases t.reverse.lookup k <;> simp
    rw [h1]
    simp only [List.mem_cons, exists_eq_or_imp]
    tauto

theorem merge_lookup_proto (tables : List Transitions) :
    ∀ acc : Transitions,
      (tables.foldl
          (fun acc next => next.foldl (fun a entry => setProperty a entry.1 entry.2) acc)
          acc).lookup "__proto__" = acc.lookup "__proto__" := by
  induction tables with
  | nil => intro acc; rfl
  | cons t rest ih =>
    intro acc
    simp only [List.foldl_cons]
    rw [ih, lookup_foldl_setProperty_proto]

theorem proto_not_mem_parseTransitions (states : States) :
    "__proto__" ∉ keys (parseTransitions states) := by
  intro h
  obtain ⟨v, hv⟩ := exists_lookup_of_mem_keys _ _ h
  unfold parseTransitions at hv
  rw [merge_lookup_proto] at hv
  simp at hv

theorem changeState_transitions (m : FSM) (s : JSValue) :
    (changeState m s).2.transitions = m.transitions := by
  rcases changeState_cases m s with hd | ⟨ts, hd⟩
  · rw [changeState_unknown m s hd]
  · cases hl : getLastElement m.history.states with
    | some last => rw [changeState_known m s ts last hd hl]
    | none =>
      have hr := readProperty_of_returned m.states s ts hd
      unfold changeState
      cases hread : readProperty m.states (toPropertyKey s) with
      | absent => exact absurd hread hr
      | own d => simp [hd, addToHistory, hl]
      | inherited name => simp [hd, addToHistory, hl]

theorem trigger_transitions (m : FSM) (ev : String) :
    (trigger m ev).2.transitions = m.transitions := by
  rcases trigger_cases m ev with ⟨e, he⟩ | ⟨target, ht⟩
  · rw [he]
  · rw [ht]; exact changeState_transitions m target

theorem undo_transitions (m : FSM) : (undo m).2.transitions = m.transitions := by
  unfold undo
  by_cases h1 : m.history.states.length = 1
  · simp [h1]
  · simp only [h1, if_false]
    cases getLastElement (arrayPop m.history.states).2 with
    | none => rfl
    | some last =>
      simp only []
      cases getAvailableTransitions last.state m.states <;> rfl

theorem redo_transitions (m : FSM) : (redo m).2.transitions = m.transitions := by
  unfold redo
  by_cases h1 : (m.undoHistory.length = 0 || !m.isEnabledRedo) = true
  · simp only [h1, if_true]
  · simp only [h1]
    cases (arrayPop m.undoHistory).1 with
    | none => rfl
    | some previousState =>
      simp only []
      cases getAvailableTransitions previousState.state m.states <;> rfl

theorem perform_transitions (m : FSM) (call : Call) :
    (perform m call).2.transitions = m.transitions := by
  rw [perform_snd]
  cases call with
  | getState => rfl
  | getStates _ => rfl
  | clearHistory => rfl
  | changeState s => exact changeState_transitions m _
  | trigger ev => exact trigger_transitions m ev
  | reset => exact changeState_transitions m _
  | undo => exact undo_transitions m
  | redo => exact redo_transitions m

theorem Reachable.transitions_eq {c : Config} {m : FSM} (h : Reachable c m) :
    m.transitions = parseTransitions c.states := by
  induction h with
  | init m h =>
    obtain ⟨ts, _, rfl⟩ := new_returned h
    rfl
  | step m call _ ih => rw [perform_transitions]; exact ih

/-- In every machine reachable on configuration c, the table transitions is
still the one parseTransitions built at construction; an event other than
__proto__ is a key of it exactly when some state's transitions has that
event; and for every state s of the configuration whose transitions (with
distinct keys, as an object's are) has the event while no later state's has
it, the table gives the event the destination that s gives it. -/
theorem flattened_transitions (c : Config) (m : FSM) (hr : Reachable c m) :
    m.transitions = parseTransitions c.states ∧
    ∀ event : String, event ≠ "__proto__" →
      (event ∈ keys m.transitions ↔ ∃ s ∈ c.states, event ∈ keys s.2.transitions) ∧
      ∀ (pre : States) (s : String × StateDescriptor) (post : States),
        c.states = pre ++ s :: post →
        event ∈ keys s.2.transitions →
        (keys s.2.transitions).Nodup →
        (∀ t ∈ post, event ∉ keys t.2.transitions) →
        m.transitions.lookup event = s.2.transitions.lookup event := by
  have heq := hr.transitions_eq
  refine ⟨heq, fun event hev => ⟨?_, ?_⟩⟩
  · rw [heq]
    unfold parseTransitions
    rw [merge_mem_keys _ _ _ hev]
    constructor
    · rintro (h | ⟨t, ht, hk⟩)
      · simp [keys] at h
      · obtain ⟨s, hs, rfl⟩ := List.mem_map.mp ht
        exact ⟨s, hs, hk⟩
    · rintro ⟨s, hs, hk⟩
      exact Or.inr ⟨s.2.transitions, List.mem_map.mpr ⟨s, hs, rfl⟩, hk⟩
  · intro pre s post hsplit hmem hnodup hlater
    rw [heq]
    unfold parseTransitions
    rw [hsplit, List.map_append, List.map_cons, List.foldl_append, List.foldl_cons]
    rw [merge_lookup_untouched _ _ _ hev]
    · rw [lookup_foldl_setProperty _ _ _ hev, lookup_reverse_of_nodup _ _ hnodup]
      obtain ⟨v, hv⟩ := exists_lookup_of_mem_keys _ _ hmem
      rw [hv]
      rfl
    · intro t ht
      obtain ⟨s2, hs2, rfl⟩ := List.mem_map.mp ht
      exact hlater s2 hs2

/-- C18: the code at the failing input.  In protoEventConfig the transitions
of state a has the own key __proto__ (with destination b), and the sibling
methods see it: getStates on that event returns a, and trigger on it moves
the machine to b.  The flattened table built at construction has no key at
all: the assignment acc['__proto__'] = 'b' created no property. -/
theorem flattened_table_drops_proto :
    FSM.new (some protoEventConfig) = .returned protoEventMachine ∧
    (∃ s ∈ protoEventConfig.states, "__proto__" ∈ keys s.2.transitions) ∧
    protoEventMachine.transitions = parseTransitions protoEventConfig.states ∧
    protoEventMachine.transitions = [] ∧
    "__proto__" ∉ keys protoEventMachine.transitions ∧
    protoEventMachine.transitions.lookup "__proto__" = none ∧
    getStates protoEventMachine (some "__proto__") = ["a"] ∧
    (trigger protoEventMachine "__proto__").1 = .returned () ∧
    getState (trigger protoEventMachine "__proto__").2 = .str "b" :=
  ⟨by decide, by decide, by decide, by decide, by decide, by decide, by decide, by decide,
    by decide⟩

/-! ## The current state and the last history entry -/

theorem ReachableNoClear.reachable {c : Config} {m : FSM} (h : ReachableNoClear c m) :
    Reachable c m := by
  induction h with
  | init m h => exact Reachable.init m h
  | step m call _ _ ih => exact Reachable.step m call ih

theorem synced_of_new {c : Config} {m : FSM} (h : FSM.new (some c) = .returned m) :
    Synced m := by
  obtain ⟨ts, _, rfl⟩ := new_returned h
  simp [Synced, initializeHistory, getLastElement, getState]

theorem synced_after_changeState {c : Config} {m : FSM} (h : Inv c m) (hs : Synced m)
    (target : JSValue) : Synced (changeState m target).2 := by
  rcases changeState_cases m target with hd | ⟨ts, hd⟩
  · rw [changeState_unknown m target hd]; exact hs
  · obtain ⟨last, _, hl, _⟩ := h.last_entry
    rw [changeState_known m target ts last hd hl]
    simp [Synced, getLastElement_append_singleton, getState]

theorem synced_after_trigger {c : Config} {m : FSM} (h : Inv c m) (hs : Synced m)
    (event : String) : Synced (trigger m event).2 := by
  rcases trigger_cases m event with ⟨e, he⟩ | ⟨target, ht⟩
  · rw [he]; exact hs
  · rw [ht]; exact synced_after_changeState h hs target

theorem synced_after_undo {c : Config} {m : FSM} (h : Inv c m) (hs : Synced m) :
    Synced (undo m).2 := by
  by_cases h1 : m.history.states.length = 1
  · rw [undo_boundary m h1]; exact hs
  · obtain ⟨pre, x, e, ts, hsplit, _, he, hd⟩ := undo_shape h h1
    rw [undo_pop m pre x e ts hsplit he hd]
    simp [Synced, he, getState]

theorem synced_after_redo {c : Config} {m : FSM} (h : Inv c m) (hs : Synced m) :
    Synced (redo m).2 := by
  by_cases h1 : m.undoHistory = [] ∨ m.isEnabledRedo = false
  · rw [redo_boundary m h1]; exact hs
  · obtain ⟨pre, e, ts, hu, hf, hd⟩ := redo_shape h h1
    rw [redo_push m pre e ts hu hf hd]
    simp [Synced, getLastElement_append_singleton, getState]

theorem synced_after_perform {c : Config} {m : FSM} (h : Inv c m) (hs : Synced m)
    (call : Call) (hcall : call ≠ .clearHistory) : Synced (perform m call).2 := by
  rw [perform_snd]
  cases call with
  | getState => exact hs
  | getStates _ => exact hs
  | changeState s => exact synced_after_changeState h hs _
  | trigger ev => exact synced_after_trigger h hs ev
  | reset => exact synced_after_changeState h hs _
  | undo => exact synced_after_undo h hs
  | redo => exact synced_after_redo h hs
  | clearHistory => exact absurd rfl hcall

theorem ReachableNoClear.synced {c : Config} {m : FSM} (h : ReachableNoClear c m) :
    Synced m := by
  induction h with
  | init m h => exact synced_of_new h
  | step m call hcall hprev ih =>
    exact synced_after_perform hprev.reachable.invariant ih call hcall

theorem reachableNoClear_abc (calls : List Call) (h : Call.clearHistory ∉ calls) :
    ReachableNoClear abcConfig (run abcMachine calls) := by
  have key : ∀ (calls : List Call) (m : FSM), Call.clearHistory ∉ calls →
      ReachableNoClear abcConfig m → ReachableNoClear abcConfig (run m calls) := by
    intro calls
    induction calls with
    | nil => intro m _ hm; exact hm
    | cons call rest ih =>
      intro m hnot hm
      have h1 : call ≠ Call.clearHistory := fun heq =>
        hnot (by rw [heq]; exact List.mem_cons_self _ _)
      exact ih (perform m call).2 (fun hmem => hnot (List.mem_cons_of_mem _ hmem))
        (ReachableNoClear.step m call h1 hm)
  exact key calls abcMachine h (ReachableNoClear.init _ new_abcConfig)

theorem clearHistory_breaks_sync :
    Synced abcAtB ∧ ¬ Synced (clearHistory abcAtB).2 :=
  ⟨by decide, by decide⟩

/-- C20: in every reachable machine, if it was reached without clearHistory
then getState() is the state of the last history entry and
availableTransitions is states[getState()].transitions (for a current state
that is a key of states: the transitions of its descriptor); and whenever
the current state is the state of the last history entry, it still is after
any call other than clearHistory. -/
theorem state_is_last_entry (c : Config) (m : FSM) (hr : Reachable c m) :
    (ReachableNoClear c m →
      (getLastElement m.history.states).map (fun e => e.state) = some (getState m) ∧
      getAvailableTransitions (getState m) m.states = .returned m.availableTransitions ∧
      (∀ s d, getState m = .str s → m.states.lookup s = some d →
        m.availableTransitions = some d.transitions)) ∧
    (∀ call : Call, call ≠ .clearHistory →
      (getLastElement m.history.states).map (fun e => e.state) = some (getState m) →
      (getLastElement (perform m call).2.history.states).map (fun e => e.state)
        = some (getState (perform m call).2)) := by
  refine ⟨fun hn => ⟨hn.synced, hr.invariant.state_known, ?_⟩, fun call hcall hs => ?_⟩
  · intro s d hs hd
    have h1 := hr.invariant.state_known
    have h2 := getAvailableTransitions_of_lookup m.states s d hd
    have hs2 : m.state = .str s := hs
    rw [hs2, h2] at h1
    injection h1 with h3
    exact h3.symm
  · exact synced_after_perform hr.invariant hs call hcall

theorem state_is_last_entry_witness :
    Reachable abcConfig abcStaleUndone ∧
    ReachableNoClear abcConfig abcStaleUndone ∧
    (getLastElement abcStaleUndone.history.states).map (fun e => e.state)
      = some (getState abcStaleUndone) ∧
    getAvailableTransitions (getState abcStaleUndone) abcStaleUndone.states
      = .returned abcStaleUndone.availableTransitions ∧
    (∀ s d, getState abcStaleUndone = .str s → abcStaleUndone.states.lookup s = some d →
      abcStaleUndone.availableTransitions = some d.transitions) ∧
    (getLastElement (perform abcStaleUndone .redo).2.history.states).map (fun e => e.state)
      = some (getState (perform abcStaleUndone .redo).2) :=
  have hn : ReachableNoClear abcConfig abcStaleUndone :=
    reachableNoClear_abc
      [.changeState "b", .undo, .changeState "c", .undo, .redo, .redo, .undo] (by decide)
  have h := state_is_last_entry abcConfig abcStaleUndone hn.reachable
  ⟨hn.reachable, hn, (h.1 hn).1, (h.1 hn).2.1, (h.1 hn).2.2,
    h.2 .redo (by decide) (h.1 hn).1⟩

end FiniteStateMachine
